import Mathlib

/-!
Verification of the proof subsystem of gpuowl (`Proof.cpp`): the proof-point
set, the residue cache, the Fiat–Shamir hash chain, the `.proof` file format
and the verifier.  Machine integers (`u32`, `u64`) are modelled as `Nat`;
residues (`Words`, a `vector<u32>`) as `List Nat`; byte streams as `List Nat`
(each entry `< 256`).  External components that are not part of this
repository's sources (the `File` byte-level I/O helpers, the SHA3 core, the
GPU big-integer engine, GMP) are modelled as explicit parameters or from the
specification's description, as noted on each definition.
-/

/-- In-memory residue: a vector of 32-bit words, as `vector<u32> Words`. -/
abbrev Words := List Nat

/-- Little-endian byte serialization of one 32-bit word (4 bytes). -/
def u32le (w : Nat) : List Nat :=
  [w % 256, w / 256 % 256, w / 65536 % 256, w / 16777216 % 256]

/-- Little-endian byte serialization of one 64-bit word (8 bytes). -/
def u64le (w : Nat) : List Nat :=
  u32le (w % 4294967296) ++ u32le (w / 4294967296)

/-- Raw little-endian byte image of a word vector (`words.data()` viewed as
bytes, little-endian host order as the code statically asserts). -/
def wordsBytes (ws : Words) : List Nat := ws.flatMap u32le

/-- Modelled from the spec: `File::readBytesLE` style reassembly of
little-endian bytes into 32-bit words, zero-padding a final partial word. -/
def bytesToWords : List Nat → Words
  | [] => []
  | [b0] => [b0]
  | [b0, b1] => [b0 + 256 * b1]
  | [b0, b1, b2] => [b0 + 256 * b1 + 65536 * b2]
  | b0 :: b1 :: b2 :: b3 :: rest =>
    (b0 + 256 * b1 + 65536 * b2 + 16777216 * b3) :: bytesToWords rest

/-- The `(E-1)/8+1 = ceil(E/8)` bytes of a residue that are hashed and stored
in a proof file (`proof::hashWords` and `Proof::save` both use this count). -/
def residueBytes (E : Nat) (ws : Words) : List Nat :=
  (wordsBytes ws).take ((E - 1) / 8 + 1)

/-- Modelled from the spec: `makeWords(E, v)` builds the canonical `E/32+1`
word little-endian encoding of a small value `v` (`common.h` is not in the
sources provided; the spec fixes the canonical encoding). -/
def makeWords (E v : Nat) : Words :=
  (List.range (E / 32 + 1)).map (fun i => v / 4294967296 ^ i % 4294967296)

-- ---- ProofSet points ----

/-- The chain of spans used by `ProofSet::ProofSet` and `isInPoints`:
`n` values starting at `s`, each followed by `(s+1)/2`. -/
def spansFrom (s : Nat) : Nat → List Nat
  | 0 => []
  | n + 1 => s :: spansFrom ((s + 1) / 2) n

/-- The spans of exponent `E` at power `P`: `(E+1)/2, ((E+1)/2+1)/2, ...`. -/
def spans (E P : Nat) : List Nat := spansFrom ((E + 1) / 2) P

/-- One doubling step of the point-set construction:
`for (i...) points.push_back(points[i] + span)` appends a shifted copy. -/
def pointsStep (acc : List Nat) (s : Nat) : List Nat := acc ++ acc.map (· + s)

/-- The raw point list built by the constructor loop, before `front() = E`
and sorting: starts from `[0]` and doubles once per span.  Sums never
overflow `u32` for `E < 2^32` prime and `P ≤ 12`, so plain `Nat` is exact. -/
def pointsRaw (E P : Nat) : List Nat := (spans E P).foldl pointsStep [0]

/-- The constructor's `points` (without the guard element): the raw list with
the leading `0` replaced by `E` (`points.front() = E`) and then sorted
(`std::sort`; any correct sort produces the same ascending list, modelled
with the structurally recursive `insertionSort`). -/
def pointsList (E P : Nat) : List Nat :=
  List.insertionSort (· ≤ ·) ((pointsRaw E P).set 0 E)

/-- `points` including the guard element `u32(-1)` pushed at the end. -/
def pointsGuard (E P : Nat) : List Nat := pointsList E P ++ [4294967295]

/-- The loop of `ProofSet::isInPoints`: walk the spans keeping the running
`start`; `k > start + span` advances `start`, `k == start + span` succeeds. -/
def isInPointsGo (k : Nat) : Nat → List Nat → Bool
  | _, [] => false
  | start, s :: rest =>
    if start + s < k then isInPointsGo k (start + s) rest
    else if k = start + s then true
    else isInPointsGo k start rest

/-- `ProofSet::isInPoints(E, power, k)`: special-cases `k == E`, otherwise
runs the span-halving walk. -/
def isInPoints (E P k : Nat) : Bool :=
  k = E || isInPointsGo k 0 (spans E P)

/-- Index returned by `std::upper_bound` on a sorted list: the first position
whose element is strictly greater than `k`. -/
def upperBoundIdx (l : List Nat) (k : Nat) : Nat :=
  (l.takeWhile (fun x => decide (x ≤ k))).length

/-- `ProofSet::next(k)` acting on the cached-iterator state `it` (an index
into the guarded points list): refresh the iterator by binary search when the
cached position is not already the upper bound, then dereference.  Returns
the new state and the returned point. -/
def nextIter (l : List Nat) (it k : Nat) : Nat × Nat :=
  let it' :=
    if l.getD it 0 ≤ k ∨ (0 < it ∧ k < l.getD (it - 1) 0) then upperBoundIdx l k
    else it
  (it', l.getD it' 0)

-- ---- Residue cache files ----

/-- A filesystem for one exponent's proof directory: file name (the decimal
iteration index) to file bytes.  `none` means the file does not exist. -/
abbrev CacheFS := Nat → Option (List Nat)

/-- Modelled from the spec: `File::writeChecked(vector<u32>)` writes the words
little-endian followed by a 4-byte CRC-32 of the payload.  The CRC function
itself lives outside the provided sources and is a parameter `crc`; its
`u32` return value is modelled by the explicit `% 2^32`. -/
def cacheFileBytes (crc : List Nat → Nat) (ws : Words) : List Nat :=
  wordsBytes ws ++ u32le (crc (wordsBytes ws) % 4294967296)

/-- `ProofSet::fileExists(k)`: byte-exact size check
`File::size(path) == i64(E / 32 + 2) * 4` (a missing file never matches). -/
def fileExistsB (E : Nat) (fs : CacheFS) (k : Nat) : Bool :=
  match fs k with
  | none => false
  | some bytes => bytes.length = (E / 32 + 2) * 4

/-- Modelled from the spec: `File::readChecked<u32>(n)` reads `n` words plus a
4-byte CRC and fails (throws) on a short file or CRC mismatch. -/
def readChecked (crc : List Nat → Nat) (n : Nat) (bytes : List Nat) : Option Words :=
  let payload := bytes.take (4 * n)
  if payload.length = 4 * n ∧ (bytes.drop (4 * n)).take 4 = u32le (crc payload % 4294967296)
  then some (bytesToWords payload)
  else none

/-- `ProofSet::load(E, power, k)`: open the file named `k` and `readChecked`
`E/32 + 1` words (`none` models the thrown exception). -/
def loadCache (E : Nat) (crc : List Nat → Nat) (fs : CacheFS) (k : Nat) : Option Words :=
  match fs k with
  | none => none
  | some bytes => readChecked crc (E / 32 + 1) bytes

/-- `ProofSet::save(E, power, k, words)`: write the checked file under name
`k` (the new filesystem state). -/
def saveCache (E : Nat) (crc : List Nat → Nat) (fs : CacheFS) (k : Nat) (ws : Words) : CacheFS :=
  fun n => if n = k then some (cacheFileBytes crc ws) else fs n

/-- `ProofSet::isValidTo(limitK)`: locate `upper_bound(points, limitK)` in the
guarded points list; at the beginning, succeed; otherwise the preceding point
must `load`, and every point before it must pass `fileExists`. -/
def isValidTo (E P : Nat) (crc : List Nat → Nat) (fs : CacheFS) (limitK : Nat) : Bool :=
  let pts := pointsGuard E P
  let i := upperBoundIdx pts limitK
  if i = 0 then true
  else
    (loadCache E crc fs (pts.getD (i - 1) 0)).isSome
      && ((pts.take (i - 1)).all (fun k => fileExistsB E fs k))

/-- `ProofSet::canDo(E, knownFactors, power, currentK)`: construct the
`ProofSet` and test `isValidTo(currentK)`. -/
def canDo (E P : Nat) (crc : List Nat → Nat) (fs : CacheFS) (currentK : Nat) : Bool :=
  isValidTo E P crc fs currentK

/-- `ProofSet::effectivePower`: try `power, power-1, ..., 1` and return the
first `p` with `canDo`, else `0`. -/
def effectivePower (E : Nat) (crc : List Nat → Nat) (fs : CacheFS) (currentK : Nat) : Nat → Nat
  | 0 => 0
  | p + 1 => if canDo E (p + 1) crc fs currentK then p + 1 else effectivePower E crc fs currentK p

-- ---- Hash chain and verifier ----

/-- A 256-bit SHA3 digest as the `array<u64, 4>` the code passes around. -/
abbrev Digest := Nat × Nat × Nat × Nat

/-- The 32-byte little-endian image of a digest, as absorbed by
`SHA3::update(prefix)` when chaining. -/
def digestBytes (d : Digest) : List Nat :=
  u64le d.1 ++ u64le d.2.1 ++ u64le d.2.2.1 ++ u64le d.2.2.2

/-- Modelled from the spec: the SHA3-256 permutation core (`Sha3Hash.h` is not
among the provided sources).  A hash is any function from the absorbed byte
stream to a digest; SHA3's byte-oriented `update` makes two successive updates
equal to one update on the concatenation, so a function of the full stream is
the faithful interface. -/
abbrev Sha3Fn := List Nat → Digest

/-- `proof::hashWords(E, words)`: SHA3-256 of the `(E-1)/8+1` residue bytes. -/
def hashWords (sha3 : Sha3Fn) (E : Nat) (ws : Words) : Digest :=
  sha3 (residueBytes E ws)

/-- `proof::hashWords(E, prefix, words)`: SHA3-256 absorbing the 32-byte
previous digest followed by the `(E-1)/8+1` residue bytes. -/
def hashWordsPre (sha3 : Sha3Fn) (E : Nat) (pre : Digest) (ws : Words) : Digest :=
  sha3 (digestBytes pre ++ residueBytes E ws)

/-- The challenge sequence recomputed by `Proof::verify`'s loop: starting from
`hash = hashWords(E, B)`, each middle extends the chain with
`hash = hashWords(E, hash, M)` and contributes `h = hash[0]`. -/
def verifyHashes (sha3 : Sha3Fn) (E : Nat) (d : Digest) : List Words → List Nat
  | [] => []
  | M :: rest =>
    let d' := hashWordsPre sha3 E d M
    d'.1 :: verifyHashes sha3 E d' rest

/-- Modelled from the spec: the hash-chain vector of §4.1,
`d_0 = SHA3-256(bytes(B))`, `d_{i+1} = SHA3-256(d_i ‖ bytes(M[i]))`,
`h[i] = low64(d_{i+1})` (low 64 bits little-endian = first `u64` word). -/
def specChainGo (sha3 : Sha3Fn) (E : Nat) (d : Digest) : List Words → List Nat
  | [] => []
  | M :: rest =>
    let d' := sha3 (digestBytes d ++ residueBytes E M)
    d'.1 :: specChainGo sha3 E d' rest

/-- Spec hash chain for terminal residue `B` and middles `M[]`. -/
def specChain (sha3 : Sha3Fn) (E : Nat) (B : Words) (middles : List Words) : List Nat :=
  specChainGo sha3 E (sha3 (residueBytes E B)) middles

/-- The GPU operations consumed by `Proof::verify`.  The engine lives outside
the provided sources (`Gpu.h`); it is a parameter of the verifier. -/
structure VerifyGpu where
  expMul : Words → Nat → Words → Bool → Words
  expExp2 : Words → Nat → Words

/-- Loop of `Proof::verify`: per middle, extend the hash chain, compare with
the supplied expected hash (early `false` on mismatch), update `B` and `A`
through `expMul`, and halve the span; afterwards raise `A` by `expExp2` over
the remaining span and accept iff `A == B`. -/
def verifyGo (g : VerifyGpu) (sha3 : Sha3Fn) (E : Nat) (hashes : List Nat) :
    List Words → Nat → Digest → Words → Words → Nat → Bool
  | [], _, _, A, B, span => g.expExp2 A span = B
  | M :: rest, i, d, A, B, span =>
    let d' := hashWordsPre sha3 E d M
    let h := d'.1
    if i < hashes.length ∧ h ≠ hashes.getD i 0 then false
    else
      let doSquareB := span % 2 = 1
      let B' := g.expMul M h B doSquareB
      let A' := g.expMul A h M false
      verifyGo g sha3 E hashes rest (i + 1) d' A' B' ((span + 1) / 2)

/-- Result of `Proof::verify`: the boolean verdict `ok = (A == B)` and the
reported primality flag `isPrime = (B == makeWords(E, 9))` (computed before
the loop, logged when `ok`). -/
structure VerifyResult where
  ok : Bool
  isPrime : Bool

/-- `Proof::verify(gpu, hashes)` on a proof `(E, B, middles)`. -/
def proofVerify (g : VerifyGpu) (sha3 : Sha3Fn) (E : Nat) (B : Words)
    (middles : List Words) (hashes : List Nat) : VerifyResult :=
  { ok := verifyGo g sha3 E hashes middles 0 (hashWords sha3 E B) (makeWords E 3) B E
    isPrime := B = makeWords E 9 }

/-- The claim's description of the verifier's final state: run the same
rounds without the early hash comparison and return the final
`(A, B) = (expExp2(A, span), B)` pair. -/
def verifyFinalGo (g : VerifyGpu) (sha3 : Sha3Fn) (E : Nat) :
    List Words → Digest → Words → Words → Nat → Words × Words
  | [], _, A, B, span => (g.expExp2 A span, B)
  | M :: rest, d, A, B, span =>
    let d' := hashWordsPre sha3 E d M
    let h := d'.1
    let doSquareB := span % 2 = 1
    let B' := g.expMul M h B doSquareB
    let A' := g.expMul A h M false
    verifyFinalGo g sha3 E rest d' A' B' ((span + 1) / 2)

/-- Final `(A, B)` of the computation described in the claim, from `A = 3`,
`B` the terminal residue and `span = E`. -/
def verifyFinal (g : VerifyGpu) (sha3 : Sha3Fn) (E : Nat) (B : Words)
    (middles : List Words) : Words × Words :=
  verifyFinalGo g sha3 E middles (hashWords sha3 E B) (makeWords E 3) B E

-- ---- Proof builder (ProofSet::computeProof) ----

/-- The GPU operations consumed by `ProofSet::computeProof`.  Buffer contents
(`Buffer<i32>`) are an abstract type `β`; `expMulInto x h y` is the in-place
`gpu->expMul(x, h, y)` result stored back into the first buffer. -/
structure BuildGpu (β : Type) where
  dummy : β
  writeIn : Words → β
  expMulInto : β → Nat → β → β
  readAndCompress : β → Words

/-- The inner `for (k = 0; i & (1 << k); ++k)` collapse of `computeProof`:
while the current low bit of `i` is set, step the buffer iterator back and
fold `buf[it-1] = expMul(buf[it-1], h, buf[it])`, where `h` walks the
reversed hash list (`hashes[p - 1 - k]`).  The recursion is structural on
that list; since `i < 2^p` has at most `p` trailing one bits and the list
has length `p` (`assert(k <= p - 1)`), the `[]` arm is never reached on the
code's inputs. -/
def collapse {β : Type} (g : BuildGpu β) : List Nat → Nat → Nat → List β → Nat × List β
  | [], _, bufIt, bufs => (bufIt, bufs)
  | h :: hsRest, i, bufIt, bufs =>
    if i % 2 = 1 then
      let bufIt' := bufIt - 1
      let bufs' := bufs.set (bufIt' - 1)
        (g.expMulInto (bufs.getD (bufIt' - 1) g.dummy) h (bufs.getD bufIt' g.dummy))
      collapse g hsRest (i / 2) bufIt' bufs'
    else (bufIt, bufs)

/-- The `for (i = 0; i < (1u << p); ++i)` loop of one level of `computeProof`:
load the residue at `points[s*(2i+1) - 1]`, upload it into the next buffer,
then collapse trailing-one positions of `i`. -/
def buildLevel {β : Type} (g : BuildGpu β) (cache : Nat → Words) (pts : List Nat)
    (revHashes : List Nat) (s p : Nat) : Nat × List β → Nat × List β :=
  fun st =>
    (List.range (2 ^ p)).foldl
      (fun st i =>
        let w := cache (pts.getD (s * (i * 2 + 1) - 1) 0)
        let bufs1 := st.2.set st.1 (g.writeIn w)
        collapse g revHashes i (st.1 + 1) bufs1)
      st

/-- The outer per-level loop of `computeProof`: run the level reduction, read
back the single reduced residue (an empty read throws), append it to the
middles and extend the hash chain.  The first argument counts the levels
still to run (structurally), the second is the current level `p`; the loop
`for (p = 0; p < power; ++p)` corresponds to starting at `(power, 0)`. -/
def buildGo {β : Type} (g : BuildGpu β) (sha3 : Sha3Fn) (E power : Nat)
    (cache : Nat → Words) (pts : List Nat) :
    Nat → Nat → Digest → List Words → List Nat → List β →
    Except String (List Words × List Nat)
  | 0, _, _, middles, hashes, _ => Except.ok (middles, hashes)
  | r + 1, p, d, middles, hashes, bufs =>
    let st := buildLevel g cache pts hashes.reverse (2 ^ (power - p - 1)) p (0, bufs)
    let w := g.readAndCompress (st.2.getD 0 g.dummy)
    if w = [] then Except.error "Read ZERO during proof generation"
    else
      let d' := hashWordsPre sha3 E d w
      buildGo g sha3 E power cache pts r (p + 1) d' (middles ++ [w]) (hashes ++ [d'.1]) st.2

/-- `ProofSet::computeProof(gpu)`: load the terminal residue `B = load(E)`,
fold the `2^power` cached residues into `power` middles with their hash
chain, and return the proof `(E, knownFactors, B, middles)` with the hashes.
The `power` buffers start as `makeBufVector(power)` placeholders. -/
def computeProof {β : Type} (g : BuildGpu β) (sha3 : Sha3Fn) (E power : Nat)
    (cache : Nat → Words) (pts : List Nat) : Except String (Words × List Words × List Nat) :=
  let B := cache E
  match buildGo g sha3 E power cache pts power 0 (hashWords sha3 E B) [] []
      (List.replicate power g.dummy) with
  | Except.error e => Except.error e
  | Except.ok (middles, hashes) => Except.ok (B, middles, hashes)

-- ---- bestPower ----

/-- Structural (fuel-driven) floor of log2 on naturals: greatest `k` with
`2^k ≤ n` (0 for `n ≤ 1`). -/
def log2fuel : Nat → Nat → Nat
  | 0, _ => 0
  | fuel + 1, n => if n ≤ 1 then 0 else log2fuel fuel (n / 2) + 1

/-- `natLog2 n` is the greatest `k` with `2^k ≤ n`, for `n ≥ 1`. -/
def natLog2 (n : Nat) : Nat := log2fuel n n

/-- Structural ceiling of log2 on naturals: least `k` with `n ≤ 2^k`. -/
def clog2fuel : Nat → Nat → Nat
  | 0, _ => 0
  | fuel + 1, n => if n ≤ 1 then 0 else clog2fuel fuel ((n + 1) / 2) + 1

/-- `natClog2 n` is the least `k` with `n ≤ 2^k`. -/
def natClog2 (n : Nat) : Nat := clog2fuel n n

/-- `⌊log2(num/den)⌋` of an exact positive rational.  The C++ computes
`log2` in `double`; at the inputs considered in the claims the value is far
from every integer boundary, so the exact rational floor agrees with the
`double` computation. -/
def floorLog2 (num den : Nat) : Int :=
  if den ≤ num then (natLog2 (num / den) : Int)
  else -(natClog2 ((den + num - 1) / num) : Int)

/-- `ProofSet::bestPower(E)`: `10 + floor(log2(E / 60e6) / 2)` (`log2(x)/2`
is `log4(x)`).  `⌊y/2⌋ = ⌊⌊y⌋/2⌋`, so flooring the halved integer log is
exact; `Int` division by 2 floors.  The function carries
`assert(power >= 2)` but performs no clamping. -/
def bestPower (E : Nat) : Int :=
  10 + floorLog2 E 60000000 / 2

-- ---- Proof file serialization ----

/-- A `Proof` object: exponent, known cofactors (ASCII decimal byte strings),
terminal residue `B` and the `power` middles. -/
structure ProofData where
  E : Nat
  knownFactors : List (List Nat)
  B : Words
  middles : List Words
deriving DecidableEq

/-- ASCII decimal digit test. -/
def isDigitB (b : Nat) : Bool := 48 ≤ b ∧ b ≤ 57

/-- ASCII whitespace test (the C locale set used by `scanf`). -/
def isSpaceB (b : Nat) : Bool := b = 32 ∨ (9 ≤ b ∧ b ≤ 13)

/-- Fuel-driven decimal printer (structural so that it kernel-evaluates). -/
def digitsFuel : Nat → Nat → List Nat
  | 0, n => [48 + n % 10]
  | fuel + 1, n => if n < 10 then [48 + n] else digitsFuel fuel (n / 10) ++ [48 + n % 10]

/-- The ASCII decimal digits of `n`, as produced by `printf("%u")` and
`to_string`. -/
def natDigitBytes (n : Nat) : List Nat := digitsFuel n n

/-- Value of an ASCII digit string (most significant first). -/
def digitsVal (bs : List Nat) : Nat := bs.foldl (fun a b => a * 10 + (b - 48)) 0

/-- `std::from_chars` on a full token in base 10 targeting `u32`: succeeds
iff the token is a nonempty all-digit string whose value fits in 32 bits
(otherwise `ptr != end` or `ec != errc{}` and the caller throws). -/
def parseU32 (bs : List Nat) : Option Nat :=
  if bs ≠ [] ∧ bs.all (fun b => isDigitB b) ∧ digitsVal bs < 4294967296
  then some (digitsVal bs) else none

/-- Modelled from the spec: the repository's `split(string, char)` utility
(its source is not provided): the fields between delimiter occurrences. -/
def splitOnByte (c : Nat) : List Nat → List (List Nat)
  | [] => [[]]
  | b :: rest =>
    if b = c then [] :: splitOnByte c rest
    else
      match splitOnByte c rest with
      | [] => [[b]]
      | t :: ts => (b :: t) :: ts

/-- `proof::mersenneToString(E, knownFactors)`:
`"M" + to_string(E)` followed by `"/" + factor` for each factor. -/
def mersenneToBytes (E : Nat) (factors : List (List Nat)) : List Nat :=
  77 :: (natDigitBytes E ++ factors.flatMap (fun f => 47 :: f))

/-- `proof::mersenneFromString`: require the `M` prefix byte, split the rest
on `/`, parse the first field as the `u32` exponent, validate every nonempty
remaining field as a positive integer and keep it verbatim.  GMP's
`mpz_class` parse is modelled on all-digit tokens (the only ones the format
emits); `test <= 0` rejects a zero value. -/
def mersenneFromBytes (bs : List Nat) : Option (Nat × List (List Nat)) :=
  match bs with
  | 77 :: rest =>
    match splitOnByte 47 rest with
    | [] => none
    | p0 :: ps =>
      match parseU32 p0 with
      | none => none
      | some e =>
        if ps.all (fun f => f = [] ∨ (f.all (fun b => isDigitB b) ∧ 0 < digitsVal f))
        then some (e, ps.filter (fun f => f ≠ []))
        else none
  | _ => none

/-- The bytes of `"PRP PROOF\nVERSION=2\nHASHSIZE=64\nPOWER="`, the part of
`Proof::HEADER_v2` before the `%u`. -/
def headerLit1 : List Nat :=
  [80, 82, 80, 32, 80, 82, 79, 79, 70, 10, 86, 69, 82, 83, 73, 79, 78, 61, 50,
   10, 72, 65, 83, 72, 83, 73, 90, 69, 61, 54, 52, 10, 80, 79, 87, 69, 82, 61]

/-- The bytes of `"NUMBER="`, the part of `HEADER_v2` between `%u\n` and
`%s`. -/
def headerLit2 : List Nat := [78, 85, 77, 66, 69, 82, 61]

/-- `Proof::save`: the header rendered by `printf(HEADER_v2, power, number,
'\n')` followed by the first `(E-1)/8+1` bytes of `B` and of each middle. -/
def proofSave (p : ProofData) : List Nat :=
  let nBytes := (p.E - 1) / 8 + 1
  headerLit1 ++ natDigitBytes p.middles.length ++ [10] ++ headerLit2
    ++ mersenneToBytes p.E p.knownFactors ++ [10]
    ++ (wordsBytes p.B).take nBytes
    ++ p.middles.flatMap (fun w => (wordsBytes w).take nBytes)

/-- Match an exact literal and return the remaining bytes. -/
def dropLit (lit bs : List Nat) : Option (List Nat) :=
  if bs.take lit.length = lit then some (bs.drop lit.length) else none

/-- The `fi.scanf(HEADER_v2, &power, number, &c)` step of `Proof::load`:
match the literals, read the `%u` digit span as `power`, read the `%s`
non-whitespace span as `number`, read one byte for `%c` and require it to be
the newline (`c != '\n'` makes `load` throw).  `scanf` whitespace directives
accept any whitespace run; on files produced by `save` the match is exact,
which is what the model states. -/
def parseHeader (bs : List Nat) : Option (Nat × List Nat × List Nat) :=
  match dropLit headerLit1 bs with
  | none => none
  | some r1 =>
    let ds := r1.takeWhile (fun b => isDigitB b)
    let r2 := r1.dropWhile (fun b => isDigitB b)
    match parseU32 ds with
    | none => none
    | some pw =>
      match dropLit (10 :: headerLit2) r2 with
      | none => none
      | some r3 =>
        let nb := r3.takeWhile (fun b => !(isSpaceB b))
        let r4 := r3.dropWhile (fun b => !(isSpaceB b))
        if nb = [] then none
        else
          match r4 with
          | 10 :: payload => some (pw, nb, payload)
          | _ => none

/-- Sequential `readBytesLE(nBytes)` chunks for the middles. -/
def chunksLE (nBytes : Nat) : Nat → List Nat → List Words
  | 0, _ => []
  | c + 1, bs => bytesToWords (bs.take nBytes) :: chunksLE nBytes c (bs.drop nBytes)

/-- `Proof::load`: scan the header, parse the Mersenne number string, then
read the `(E-1)/8+1`-byte terminal residue and `power` middles with
`readBytesLE` (modelled from the spec: little-endian bytes to words with the
final partial word zero-padded; a short file fails). -/
def proofLoad (bs : List Nat) : Option ProofData :=
  match parseHeader bs with
  | none => none
  | some (pw, nb, payload) =>
    match mersenneFromBytes nb with
    | none => none
    | some (e, fs) =>
      let nBytes := (e - 1) / 8 + 1
      if nBytes * (pw + 1) ≤ payload.length
      then some { E := e, knownFactors := fs,
                  B := bytesToWords (payload.take nBytes),
                  middles := chunksLE nBytes pw (payload.drop nBytes) }
      else none

-- ---- Support definitions used by the statements and proofs ----

/-- Sum of the spans selected by a boolean mask: each element of `pointsRaw`
is such a sum (the binary index determines the mask). -/
def maskedSum : List Bool → List Nat → Nat
  | [], _ => 0
  | _, [] => 0
  | true :: ms, s :: ss => s + maskedSum ms ss
  | false :: ms, s :: ss => maskedSum ms ss

/-- The span-halving generation property: each element is `(c+1)/2` of the
previous bound `c`. -/
inductive SpanChain : Nat → List Nat → Prop
  | nil (c : Nat) : SpanChain c []
  | cons (c : Nat) (rest : List Nat) :
      SpanChain ((c + 1) / 2) rest → SpanChain c ((c + 1) / 2 :: rest)

/-- `spanAfter s n`: the span value after `n` halvings of `s`. -/
def spanAfter (s : Nat) : Nat → Nat
  | 0 => s
  | n + 1 => spanAfter ((s + 1) / 2) n

/-- `v` is the smallest element of `l` strictly greater than `k`. -/
def isLeastGreater (l : List Nat) (k v : Nat) : Prop :=
  k < v ∧ v ∈ l ∧ ∀ x ∈ l, k < x → v ≤ x

/-- Digest after absorbing a list of middles into the chain. -/
def digestFold (sha3 : Sha3Fn) (E : Nat) : Digest → List Words → Digest
  | d, [] => d
  | d, M :: rest => digestFold sha3 E (hashWordsPre sha3 E d M) rest

/-- A trivial CRC instantiation used by concrete scenarios. -/
def crcZero : List Nat → Nat := fun _ => 0

/-- The empty cache directory. -/
def emptyFS : CacheFS := fun _ => none

/-- The cache-resume scenario of the claims: `E = 521`, `P = 4`, all proof
points present as valid files except `points[8] = 294`. -/
def scenarioFS : CacheFS := fun k =>
  if k = 294 then none
  else if (pointsList 521 4).contains k
  then some (cacheFileBytes crcZero (List.replicate 17 0))
  else none

/-- A concrete engine whose operations return the constant residue `[0]`. -/
def cexGpu : VerifyGpu :=
  { expMul := fun _ _ _ _ => [0], expExp2 := fun _ _ => [0] }

/-- A concrete hash instantiation with first digest word 1. -/
def cexSha : Sha3Fn := fun _ => (1, 0, 0, 0)

/-- A concrete build engine over `Nat` buffers whose read returns `[5]`. -/
def bldGpu : BuildGpu Nat :=
  { dummy := 0, writeIn := fun _ => 0, expMulInto := fun _ _ _ => 0,
    readAndCompress := fun _ => [5] }

/-- A concrete hash instantiation keyed on the absorbed stream length. -/
def bldSha : Sha3Fn := fun bs => (bs.length, 0, 0, 0)

-- ---- Basic list and byte lemmas ----

theorem wordsBytes_nil : wordsBytes [] = [] := rfl

theorem wordsBytes_cons (w : Nat) (rest : Words) :
    wordsBytes (w :: rest) =
      w % 256 :: w / 256 % 256 :: w / 65536 % 256 :: w / 16777216 % 256 :: wordsBytes rest := rfl

theorem length_wordsBytes (ws : Words) : (wordsBytes ws).length = 4 * ws.length := by
  induction ws with
  | nil => rfl
  | cons w rest ih => rw [wordsBytes_cons]; simp only [List.length_cons, ih]; omega

theorem bytesToWords_cons4 (a b c d : Nat) (t : List Nat) :
    bytesToWords (a :: b :: c :: d :: t) =
      (a + 256 * b + 65536 * c + 16777216 * d) :: bytesToWords t := by
  cases t <;> rfl

theorem bytesToWords_wordsBytes (ws : Words) (h : ∀ w ∈ ws, w < 4294967296) :
    bytesToWords (wordsBytes ws) = ws := by
  induction ws with
  | nil => rfl
  | cons w rest ih =>
    rw [wordsBytes_cons, bytesToWords_cons4, ih (fun x hx => h x (List.mem_cons_of_mem _ hx))]
    have hw : w < 4294967296 := h w (List.mem_cons_self _ _)
    congr 1
    omega

-- ---- Span lemmas ----

theorem spansFrom_length (s n : Nat) : (spansFrom s n).length = n := by
  induction n generalizing s with
  | zero => rfl
  | succ n ih => simp [spansFrom, ih]

theorem spanChain_spansFrom (n c : Nat) : SpanChain c (spansFrom ((c + 1) / 2) n) := by
  induction n generalizing c with
  | zero => exact SpanChain.nil c
  | succ n ih => exact SpanChain.cons c _ (ih ((c + 1) / 2))

theorem spanChain_pos {c : Nat} {ss : List Nat} (h : SpanChain c ss) (hc : 1 ≤ c) :
    ∀ s ∈ ss, 1 ≤ s := by
  induction h with
  | nil => intro s hs; cases hs
  | cons c rest _ ih =>
    intro s hs
    rcases List.mem_cons.mp hs with rfl | hs
    · omega
    · exact ih (by omega) s hs

theorem maskedSum_nil_right (m : List Bool) : maskedSum m [] = 0 := by
  cases m with
  | nil => rfl
  | cons b ms => cases b <;> rfl

theorem maskedSum_le_sum (m : List Bool) (ss : List Nat) : maskedSum m ss ≤ ss.sum := by
  induction ss generalizing m with
  | nil => simp [maskedSum_nil_right]
  | cons s rest ih =>
    cases m with
    | nil => simp [maskedSum]
    | cons b ms =>
      have := ih ms
      cases b <;> simp only [maskedSum, List.sum_cons] <;> omega

/-- Greedy-walk soundness: any positive masked sum of a span chain whose
total does not exceed the bound is found by `isInPointsGo`. -/
theorem isInPointsGo_maskedSum {ss : List Nat} {c : Nat} (hch : SpanChain c ss)
    (hsum : ss.sum ≤ c) :
    ∀ (m : List Bool) (start k : Nat), k = start + maskedSum m ss →
      1 ≤ maskedSum m ss → isInPointsGo k start ss = true := by
  induction ss generalizing c with
  | nil =>
    intro m start k _ hpos
    rw [maskedSum_nil_right] at hpos
    omega
  | cons s rest ih =>
    intro m start k hk hpos
    cases hch with
    | cons _ _ hrest =>
      rw [List.sum_cons] at hsum
      have hsum' : rest.sum ≤ (c + 1) / 2 := by omega
      cases m with
      | nil => simp [maskedSum] at hpos
      | cons b ms =>
        have hle : maskedSum ms rest ≤ rest.sum := maskedSum_le_sum ms rest
        cases b with
        | true =>
          simp only [maskedSum] at hk hpos
          by_cases hz : maskedSum ms rest = 0
          · rw [isInPointsGo]
            have hks : k = start + (c + 1) / 2 := by omega
            rw [if_neg (by omega), if_pos hks]
          · rw [isInPointsGo, if_pos (by omega)]
            exact ih hrest hsum' ms (start + (c + 1) / 2) k (by omega) (by omega)
        | false =>
          simp only [maskedSum] at hk hpos
          rw [isInPointsGo]
          by_cases hks : k = start + (c + 1) / 2
          · rw [if_neg (by omega), if_pos hks]
          · rw [if_neg (by omega), if_neg hks]
            exact ih hrest hsum' ms start k (by omega) (by omega)

/-- Total of a span chain after accounting for the final value. -/
theorem sum_spansFrom_le (n s : Nat) :
    (spansFrom s n).sum + 2 * spanAfter s n ≤ 2 * s + n := by
  induction n generalizing s with
  | zero => simp [spansFrom, spanAfter]
  | succ n ih =>
    have := ih ((s + 1) / 2)
    simp only [spansFrom, spanAfter, List.sum_cons]
    omega

theorem spanAfter_mono {s t : Nat} (n : Nat) (h : s ≤ t) : spanAfter s n ≤ spanAfter t n := by
  induction n generalizing s t with
  | zero => simpa [spanAfter]
  | succ n ih => exact ih (by omega)

theorem spanAfter_lower (s n : Nat) : s / 2 ^ n ≤ spanAfter s n := by
  induction n generalizing s with
  | zero => simp [spanAfter]
  | succ n ih =>
    calc s / 2 ^ (n + 1) = s / 2 / 2 ^ n := by
          rw [Nat.div_div_eq_div_mul]; ring_nf
      _ ≤ spanAfter (s / 2) n := ih (s / 2)
      _ ≤ spanAfter ((s + 1) / 2) n := spanAfter_mono n (by omega)

-- ---- Point-set structure lemmas ----

theorem foldl_pointsStep_length (ss : List Nat) (acc : List Nat) :
    (ss.foldl pointsStep acc).length = acc.length * 2 ^ ss.length := by
  induction ss generalizing acc with
  | nil => simp
  | cons s rest ih =>
    simp only [List.foldl_cons, ih, pointsStep, List.length_append, List.length_map,
      List.length_cons, pow_succ]
    ring

theorem pointsRaw_length (E P : Nat) : (pointsRaw E P).length = 2 ^ P := by
  simp [pointsRaw, foldl_pointsStep_length, spans, spansFrom_length]

theorem mem_foldl_pointsStep {ss acc : List Nat} {x : Nat}
    (hx : x ∈ ss.foldl pointsStep acc) :
    ∃ a ∈ acc, ∃ m : List Bool, x = a + maskedSum m ss := by
  induction ss generalizing acc with
  | nil =>
    exact ⟨x, hx, [], by simp [maskedSum]⟩
  | cons s rest ih =>
    rw [List.foldl_cons] at hx
    obtain ⟨a', ha', m', hm'⟩ := ih hx
    rcases List.mem_append.mp ha' with h | h
    · exact ⟨a', h, false :: m', by simpa [maskedSum] using hm'⟩
    · obtain ⟨a, ha, rfl⟩ := List.mem_map.mp h
      exact ⟨a, ha, true :: m', by simp only [maskedSum]; omega⟩

theorem foldl_pointsStep_inv (ss : List Nat) (acc : List Nat)
    (hs : ∀ s ∈ ss, 1 ≤ s) (hacc : ∃ t, acc = 0 :: t ∧ ∀ x ∈ t, 1 ≤ x) :
    ∃ t, ss.foldl pointsStep acc = 0 :: t ∧ ∀ x ∈ t, 1 ≤ x := by
  induction ss generalizing acc with
  | nil => exact hacc
  | cons s rest ih =>
    obtain ⟨t, rfl, ht⟩ := hacc
    rw [List.foldl_cons]
    refine ih _ (fun u hu => hs u (List.mem_cons_of_mem _ hu))
      ⟨t ++ (0 + s) :: t.map (· + s), by simp [pointsStep], ?_⟩
    intro x hx
    rcases List.mem_append.mp hx with h | h
    · exact ht x h
    · rcases List.mem_cons.mp h with rfl | h
      · have := hs s (List.mem_cons_self _ _); omega
      · obtain ⟨y, _, rfl⟩ := List.mem_map.mp h
        have := hs s (List.mem_cons_self _ _); omega

theorem pointsRaw_eq_cons (E P : Nat) (hE : 1 ≤ E) :
    ∃ t, pointsRaw E P = 0 :: t ∧ ∀ x ∈ t, 1 ≤ x :=
  foldl_pointsStep_inv _ _ (spanChain_pos (spanChain_spansFrom P E) hE)
    ⟨[], rfl, by simp⟩

theorem mem_pointsList_iff (E P : Nat) {x : Nat} :
    x ∈ pointsList E P ↔ x ∈ (pointsRaw E P).set 0 E :=
  List.mem_insertionSort _

theorem pointsList_sorted (E P : Nat) : List.Sorted (· ≤ ·) (pointsList E P) :=
  List.sorted_insertionSort _ _

theorem pointsList_length (E P : Nat) : (pointsList E P).length = 2 ^ P := by
  rw [pointsList, List.length_insertionSort, List.length_set, pointsRaw_length]

theorem mem_pointsList_cases (E P : Nat) (hE : 1 ≤ E) {x : Nat}
    (hx : x ∈ pointsList E P) :
    x = E ∨ (1 ≤ x ∧ ∃ m : List Bool, x = maskedSum m (spans E P)) := by
  obtain ⟨t, hraw, ht⟩ := pointsRaw_eq_cons E P hE
  rw [mem_pointsList_iff, hraw, List.set_cons_zero] at hx
  rcases List.mem_cons.mp hx with rfl | hx
  · exact Or.inl rfl
  · refine Or.inr ⟨ht x hx, ?_⟩
    have hx' : x ∈ pointsRaw E P := by rw [hraw]; exact List.mem_cons_of_mem _ hx
    obtain ⟨a, ha, m, hm⟩ := mem_foldl_pointsStep hx'
    rcases List.mem_singleton.mp ha with rfl
    exact ⟨m, by omega⟩

theorem pointsList_pos (E P : Nat) (hE : 1 ≤ E) : ∀ x ∈ pointsList E P, 1 ≤ x := by
  intro x hx
  rcases mem_pointsList_cases E P hE hx with rfl | ⟨h1, _⟩ <;> omega

theorem mem_pointsList_self (E P : Nat) (hE : 1 ≤ E) : E ∈ pointsList E P := by
  obtain ⟨t, hraw, _⟩ := pointsRaw_eq_cons E P hE
  rw [mem_pointsList_iff, hraw, List.set_cons_zero]
  exact List.mem_cons_self _ _

theorem pointsList_le (E P : Nat) (hE : 1 ≤ E) (hsum : (spans E P).sum ≤ E) :
    ∀ x ∈ pointsList E P, x ≤ E := by
  intro x hx
  rcases mem_pointsList_cases E P hE hx with rfl | ⟨_, m, rfl⟩
  · exact Nat.le_refl _
  · exact Nat.le_trans (maskedSum_le_sum m _) hsum

theorem pointsList_ne_nil (E P : Nat) : pointsList E P ≠ [] := by
  intro h
  have hl := pointsList_length E P
  rw [h] at hl
  have hp : 0 < 2 ^ P := Nat.pos_pow_of_pos P (by omega)
  simp at hl
  omega

theorem sorted_getLast?_max {l : List Nat} (hl : List.Sorted (· ≤ ·) l) {y : Nat}
    (hy : y ∈ l) (hmax : ∀ x ∈ l, x ≤ y) : l.getLast? = some y := by
  induction l with
  | nil => cases hy
  | cons a t ih =>
    cases t with
    | nil =>
      rcases List.mem_singleton.mp hy with rfl
      rfl
    | cons b t' =>
      rw [List.getLast?_cons_cons]
      have hs := List.sorted_cons.mp hl
      have hy' : y ∈ b :: t' := by
        rcases List.mem_cons.mp hy with rfl | h
        · have h1 : b ≤ y := hmax b (List.mem_cons_of_mem _ (List.mem_cons_self _ _))
          have h2 : y ≤ b := hs.1 b (List.mem_cons_self _ _)
          have : b = y := by omega
          rw [← this]
          exact List.mem_cons_self _ _
        · exact h
      exact ih hs.2 hy' (fun x hx => hmax x (List.mem_cons_of_mem _ hx))

theorem pointsList_getLast? (E P : Nat) (hE : 1 ≤ E) (hsum : (spans E P).sum ≤ E) :
    (pointsList E P).getLast? = some E :=
  sorted_getLast?_max (pointsList_sorted E P) (mem_pointsList_self E P hE)
    (pointsList_le E P hE hsum)

theorem spanChain_spans (E P : Nat) : SpanChain E (spans E P) :=
  spanChain_spansFrom P E

theorem pointsList_isInPoints (E P : Nat) (hE : 1 ≤ E) (hsum : (spans E P).sum ≤ E) :
    ∀ k ∈ pointsList E P, isInPoints E P k = true := by
  intro k hk
  rcases mem_pointsList_cases E P hE hk with rfl | ⟨h1, m, rfl⟩
  · simp [isInPoints]
  · rw [isInPoints, Bool.or_eq_true]
    exact Or.inr (isInPointsGo_maskedSum (spanChain_spans E P) hsum m 0 _ (by omega) h1)

theorem pointsList_headD_pos (E P : Nat) (hE : 1 ≤ E) : 0 < (pointsList E P).headD 0 := by
  have hne := pointsList_ne_nil E P
  cases h : pointsList E P with
  | nil => exact absurd h hne
  | cons a t =>
    have : a ∈ pointsList E P := by rw [h]; exact List.mem_cons_self _ _
    have := pointsList_pos E P hE a this
    simpa using this

-- ---- Claim C3: points invariants ----

/-- C3 (counterexample): at the odd prime `E = 7` with power `P = 4` (both in
the claim's range) the constructed points vector does not satisfy the claimed
invariants: its last element is `8`, not `E = 7`. -/
theorem points_invariant_cex :
    Nat.Prime 7 ∧ 7 % 2 = 1 ∧ 1 ≤ 4 ∧ 4 ≤ 12 ∧
      ¬((pointsList 7 4).getLast? = some (7 : Nat)) := by
  refine ⟨by decide, by decide, by decide, by decide, by decide⟩

/-- C3 (amended): for every odd prime `E` and power `P ∈ [1, 12]` **such that
the total of the `P` spans does not exceed `E`** (true whenever
`E ≥ P·2^P`, in particular for every exponent the program is used on), the
points vector is sorted ascending, has `2^P` elements, starts strictly
positive, ends at `E`, and every element passes `isInPoints`. -/
theorem points_invariant (E P : Nat) (hprime : Nat.Prime E) (hodd : E % 2 = 1)
    (hP1 : 1 ≤ P) (hP2 : P ≤ 12) (hsum : (spans E P).sum ≤ E) :
    (pointsList E P).length = 2 ^ P ∧
    List.Sorted (· ≤ ·) (pointsList E P) ∧
    (∀ x ∈ pointsList E P, 0 < x) ∧
    0 < (pointsList E P).headD 0 ∧
    (pointsList E P).getLast? = some E ∧
    (∀ k ∈ pointsList E P, isInPoints E P k = true) := by
  have hE : 1 ≤ E := le_of_lt hprime.one_lt
  exact ⟨pointsList_length E P, pointsList_sorted E P, pointsList_pos E P hE,
    pointsList_headD_pos E P hE, pointsList_getLast? E P hE hsum,
    pointsList_isInPoints E P hE hsum⟩

/-- C3 witness at the odd prime `E = 521`, `P = 4`. -/
theorem points_invariant_witness :
    (Nat.Prime 521 ∧ 521 % 2 = 1 ∧ 1 ≤ 4 ∧ 4 ≤ 12 ∧ (spans 521 4).sum ≤ 521) ∧
    ((pointsList 521 4).length = 2 ^ 4 ∧
      List.Sorted (· ≤ ·) (pointsList 521 4) ∧
      (∀ x ∈ pointsList 521 4, 0 < x) ∧
      0 < (pointsList 521 4).headD 0 ∧
      (pointsList 521 4).getLast? = some 521 ∧
      (∀ k ∈ pointsList 521 4, isInPoints 521 4 k = true)) :=
  ⟨⟨by decide, by decide, by decide, by decide, by decide⟩,
    points_invariant 521 4 (by decide) (by decide) (by decide) (by decide) (by decide)⟩

-- ---- upper_bound lemmas ----

theorem upperBoundIdx_eq_zero {l : List Nat} {k : Nat} (h : ∀ x ∈ l, k < x) :
    upperBoundIdx l k = 0 := by
  cases l with
  | nil => rfl
  | cons a t =>
    have ha : ¬(a ≤ k) := by have := h a (List.mem_cons_self _ _); omega
    simp [upperBoundIdx, List.takeWhile_cons, ha]

theorem upperBoundIdx_le_length (l : List Nat) (k : Nat) :
    upperBoundIdx l k ≤ l.length := by
  induction l with
  | nil => exact Nat.le_refl 0
  | cons a t ih =>
    by_cases ha : a ≤ k
    · simp only [upperBoundIdx, List.takeWhile_cons, decide_eq_true ha, List.length_cons]
      exact Nat.succ_le_succ ih
    · simp [upperBoundIdx, List.takeWhile_cons, ha]

theorem upperBoundIdx_lt_length {l : List Nat} {k : Nat} (hex : ∃ x ∈ l, k < x) :
    upperBoundIdx l k < l.length := by
  induction l with
  | nil => obtain ⟨x, hx, _⟩ := hex; cases hx
  | cons a t ih =>
    by_cases ha : a ≤ k
    · obtain ⟨x, hx, hkx⟩ := hex
      have hx' : x ∈ t := by
        rcases List.mem_cons.mp hx with rfl | h
        · omega
        · exact h
      simp only [upperBoundIdx, List.takeWhile_cons, decide_eq_true ha, List.length_cons]
      exact Nat.succ_lt_succ (ih ⟨x, hx', hkx⟩)
    · simp [upperBoundIdx, List.takeWhile_cons, ha]

theorem upperBoundIdx_getD_gt {l : List Nat} {k : Nat}
    (h : upperBoundIdx l k < l.length) : k < l.getD (upperBoundIdx l k) 0 := by
  induction l with
  | nil => simp at h
  | cons a t ih =>
    by_cases ha : a ≤ k
    · simp only [upperBoundIdx, List.takeWhile_cons, decide_eq_true ha,
        List.length_cons] at h ⊢
      exact ih (Nat.lt_of_succ_lt_succ h)
    · simp [upperBoundIdx, List.takeWhile_cons, ha]
      omega

theorem upperBoundIdx_getD_le {l : List Nat} {k j : Nat}
    (hj : j < upperBoundIdx l k) : l.getD j 0 ≤ k := by
  induction l generalizing j with
  | nil => simp [upperBoundIdx, List.takeWhile] at hj
  | cons a t ih =>
    by_cases ha : a ≤ k
    · simp only [upperBoundIdx, List.takeWhile_cons, decide_eq_true ha,
        List.length_cons] at hj
      cases j with
      | zero => simpa using ha
      | succ j => exact ih (Nat.lt_of_succ_lt_succ hj)
    · simp [upperBoundIdx, List.takeWhile_cons, ha] at hj

theorem sorted_getD_mono {l : List Nat} (h : List.Sorted (· ≤ ·) l) {i j : Nat}
    (hij : i ≤ j) (hj : j < l.length) : l.getD i 0 ≤ l.getD j 0 := by
  rcases Nat.lt_or_ge i j with hlt | hge
  · have hi : i < l.length := by omega
    rw [List.getD_eq_getElem l 0 hi, List.getD_eq_getElem l 0 hj]
    have := List.pairwise_iff_get.mp h ⟨i, hi⟩ ⟨j, hj⟩ hlt
    simpa [List.get_eq_getElem] using this
  · have : i = j := by omega
    rw [this]

-- ---- Claim C8: next(k) ----

theorem leastGreater_unique {l : List Nat} {k v w : Nat}
    (hv : isLeastGreater l k v) (hw : isLeastGreater l k w) : v = w := by
  have h1 := hv.2.2 w hw.2.1 hw.1
  have h2 := hw.2.2 v hv.2.1 hv.1
  omega

theorem upperBoundIdx_least {l : List Nat} (hsor : List.Sorted (· ≤ ·) l) {k : Nat}
    (hex : ∃ x ∈ l, k < x) : isLeastGreater l k (l.getD (upperBoundIdx l k) 0) := by
  have hu : upperBoundIdx l k < l.length := upperBoundIdx_lt_length hex
  refine ⟨upperBoundIdx_getD_gt hu, ?_, ?_⟩
  · rw [List.getD_eq_getElem l 0 hu]
    exact List.getElem_mem hu
  · intro x hx hkx
    obtain ⟨⟨jx, hjx⟩, rfl⟩ := List.mem_iff_get.mp hx
    rcases Nat.lt_or_ge jx (upperBoundIdx l k) with hlt | hge
    · have := upperBoundIdx_getD_le (l := l) (k := k) hlt
      rw [List.getD_eq_getElem l 0 (by omega)] at this
      simp only [List.get_eq_getElem] at hkx
      omega
    · have := sorted_getD_mono hsor hge hjx
      rw [List.getD_eq_getElem l 0 hjx] at this
      simpa [List.get_eq_getElem] using this

theorem nextIter_correct {l : List Nat} (hsor : List.Sorted (· ≤ ·) l) (it k : Nat)
    (hit : it < l.length) (hex : ∃ x ∈ l, k < x) :
    isLeastGreater l k (nextIter l it k).2 ∧
    (nextIter l it k).2 = l.getD (upperBoundIdx l k) 0 ∧
    (nextIter l it k).1 < l.length := by
  have hub := upperBoundIdx_least hsor hex
  have hu : upperBoundIdx l k < l.length := upperBoundIdx_lt_length hex
  by_cases hc : l.getD it 0 ≤ k ∨ (0 < it ∧ k < l.getD (it - 1) 0)
  · have h1 : (nextIter l it k).1 = upperBoundIdx l k := by
      show (if l.getD it 0 ≤ k ∨ (0 < it ∧ k < l.getD (it - 1) 0)
        then upperBoundIdx l k else it) = upperBoundIdx l k
      rw [if_pos hc]
    have h2 : (nextIter l it k).2 = l.getD (upperBoundIdx l k) 0 := by
      show l.getD (if l.getD it 0 ≤ k ∨ (0 < it ∧ k < l.getD (it - 1) 0)
        then upperBoundIdx l k else it) 0 = l.getD (upperBoundIdx l k) 0
      rw [if_pos hc]
    rw [h1, h2]
    exact ⟨hub, rfl, hu⟩
  · have h1 : (nextIter l it k).1 = it := by
      show (if l.getD it 0 ≤ k ∨ (0 < it ∧ k < l.getD (it - 1) 0)
        then upperBoundIdx l k else it) = it
      rw [if_neg hc]
    have h2 : (nextIter l it k).2 = l.getD it 0 := by
      show l.getD (if l.getD it 0 ≤ k ∨ (0 < it ∧ k < l.getD (it - 1) 0)
        then upperBoundIdx l k else it) 0 = l.getD it 0
      rw [if_neg hc]
    rw [h1, h2]
    push_neg at hc
    obtain ⟨hc1, hc2⟩ := hc
    have hstay : isLeastGreater l k (l.getD it 0) := by
      refine ⟨by omega, ?_, ?_⟩
      · rw [List.getD_eq_getElem l 0 hit]
        exact List.getElem_mem hit
      · intro x hx hkx
        obtain ⟨⟨jx, hjx⟩, rfl⟩ := List.mem_iff_get.mp hx
        rcases Nat.lt_or_ge jx it with hlt | hge
        · have hpos : 0 < it := by omega
          have hle : l.getD (it - 1) 0 ≤ k := hc2 hpos
          have hmono : l.getD jx 0 ≤ l.getD (it - 1) 0 :=
            sorted_getD_mono hsor (by omega) (by omega)
          rw [List.getD_eq_getElem l 0 hjx] at hmono
          simp only [List.get_eq_getElem] at hkx
          omega
        · have := sorted_getD_mono hsor hge hjx
          rw [List.getD_eq_getElem l 0 hjx] at this
          simpa [List.get_eq_getElem] using this
    exact ⟨hstay, leastGreater_unique hstay hub, hit⟩

/-- Every point (raw or sorted) is at most `u32(-1)`, so the guarded list is
still sorted: the span total is bounded through `spanAfter`. -/
theorem pointsList_le_guard (E P : Nat) (hE : 1 ≤ E) (hE32 : E < 4294967295)
    (hP : P ≤ 12) : ∀ x ∈ pointsList E P, x ≤ 4294967295 := by
  have hsum : (spans E P).sum ≤ 4294967295 := by
    rw [show spans E P = spansFrom ((E + 1) / 2) P from rfl]
    have hb := sum_spansFrom_le P ((E + 1) / 2)
    rcases le_or_lt E 4294967282 with hsmall | hbig
    · omega
    · have h1 : ((E + 1) / 2) / 2 ^ P ≤ spanAfter ((E + 1) / 2) P :=
        spanAfter_lower _ P
      have h2 : ((E + 1) / 2) / 4096 ≤ ((E + 1) / 2) / 2 ^ P := by
        refine Nat.div_le_div_left ?_ ?_
        · calc (2 : Nat) ^ P ≤ 2 ^ 12 := Nat.pow_le_pow_right (by omega) hP
            _ = 4096 := by norm_num
        · exact Nat.pos_pow_of_pos P (by omega)
      have h3 : ((E + 1) / 2) / 4096 ≤ spanAfter ((E + 1) / 2) P := by omega
      omega
  intro x hx
  rcases mem_pointsList_cases E P hE hx with rfl | ⟨_, m, rfl⟩
  · omega
  · have h4 := maskedSum_le_sum m (spans E P)
    omega

theorem pointsGuard_sorted (E P : Nat) (hE : 1 ≤ E) (hE32 : E < 4294967295)
    (hP : P ≤ 12) : List.Sorted (· ≤ ·) (pointsGuard E P) := by
  rw [pointsGuard]
  refine List.pairwise_append.mpr ⟨pointsList_sorted E P, by simp, ?_⟩
  intro x hx y hy
  rcases List.mem_singleton.mp hy with rfl
  exact pointsList_le_guard E P hE hE32 hP x hx

theorem pointsGuard_length (E P : Nat) :
    (pointsGuard E P).length = 2 ^ P + 1 := by
  simp [pointsGuard, pointsList_length]

/-- C8: `ProofSet::next(k)` returns the smallest point strictly greater than
`k`, whatever the previous queries left in the cached iterator, and always
agrees with the plain `upper_bound` search. -/
theorem next_correct (E P : Nat) (hE : 1 ≤ E) (hE32 : E < 4294967295)
    (hP : P ≤ 12) (hist : List Nat) (hhist : ∀ q ∈ hist, q < 4294967295)
    (k : Nat) (hk : k < E) :
    isLeastGreater (pointsList E P) k
      (nextIter (pointsGuard E P)
        (hist.foldl (fun it q => (nextIter (pointsGuard E P) it q).1) 0) k).2 ∧
    (nextIter (pointsGuard E P)
        (hist.foldl (fun it q => (nextIter (pointsGuard E P) it q).1) 0) k).2 =
      (pointsGuard E P).getD (upperBoundIdx (pointsGuard E P) k) 0 := by
  have hsor := pointsGuard_sorted E P hE hE32 hP
  have hlen : 0 < (pointsGuard E P).length := by
    rw [pointsGuard_length]
    have := Nat.pos_pow_of_pos P (show 0 < 2 by omega)
    omega
  have hguard : (4294967295 : Nat) ∈ pointsGuard E P := by
    rw [pointsGuard]
    exact List.mem_append_right _ (List.mem_singleton.mpr rfl)
  have hstate : ∀ (qs : List Nat), (∀ q ∈ qs, q < 4294967295) → ∀ it,
      it < (pointsGuard E P).length →
      qs.foldl (fun it q => (nextIter (pointsGuard E P) it q).1) it <
        (pointsGuard E P).length := by
    intro qs
    induction qs with
    | nil => intro _ it hit; exact hit
    | cons q rest ih =>
      intro hq it hit
      rw [List.foldl_cons]
      exact ih (fun u hu => hq u (List.mem_cons_of_mem _ hu)) _
        (nextIter_correct hsor it q hit
          ⟨4294967295, hguard, hq q (List.mem_cons_self _ _)⟩).2.2
  have hit := hstate hist hhist 0 hlen
  have hE_mem : E ∈ pointsGuard E P := by
    rw [pointsGuard]
    exact List.mem_append_left _ (mem_pointsList_self E P hE)
  have hmain := nextIter_correct hsor _ k hit ⟨E, hE_mem, hk⟩
  refine ⟨?_, hmain.2.1⟩
  obtain ⟨h1, h2, h3⟩ := hmain.1
  have hEle : (nextIter (pointsGuard E P)
      (hist.foldl (fun it q => (nextIter (pointsGuard E P) it q).1) 0) k).2 ≤ E :=
    h3 E hE_mem hk
  have hmem' : (nextIter (pointsGuard E P)
      (hist.foldl (fun it q => (nextIter (pointsGuard E P) it q).1) 0) k).2 ∈
      pointsList E P := by
    rcases List.mem_append.mp h2 with h | h
    · exact h
    · rcases List.mem_singleton.mp h with h
      rw [h] at hEle
      omega
  refine ⟨h1, hmem', ?_⟩
  intro x hx hkx
  exact h3 x (by rw [pointsGuard]; exact List.mem_append_left _ hx) hkx

/-- C8 witness: `E = 5`, `P = 1`, after a rewinding history `[2, 1]` the query
`k = 3` still returns `5`, the smallest point greater than 3. -/
theorem next_correct_witness :
    isLeastGreater (pointsList 5 1) 3
      (nextIter (pointsGuard 5 1)
        (([2, 1] : List Nat).foldl (fun it q => (nextIter (pointsGuard 5 1) it q).1) 0) 3).2 ∧
    (nextIter (pointsGuard 5 1)
        (([2, 1] : List Nat).foldl (fun it q => (nextIter (pointsGuard 5 1) it q).1) 0) 3).2 =
      (pointsGuard 5 1).getD (upperBoundIdx (pointsGuard 5 1) 3) 0 :=
  next_correct 5 1 (by decide) (by decide) (by decide) [2, 1] (by decide) 3 (by decide)

-- ---- Claim C9: effectivePower ----

theorem effectivePower_largest (E : Nat) (crc : List Nat → Nat) (fs : CacheFS) (k : Nat) :
    ∀ P : Nat,
      (effectivePower E crc fs k P = 0 ∨
        (1 ≤ effectivePower E crc fs k P ∧ effectivePower E crc fs k P ≤ P ∧
          canDo E (effectivePower E crc fs k P) crc fs k = true)) ∧
      (∀ p, effectivePower E crc fs k P < p → p ≤ P → canDo E p crc fs k = false) := by
  intro P
  induction P with
  | zero => exact ⟨Or.inl rfl, fun p h1 h2 => absurd h2 (by omega)⟩
  | succ P ih =>
    by_cases hc : canDo E (P + 1) crc fs k = true
    · rw [effectivePower, if_pos hc]
      exact ⟨Or.inr ⟨by omega, Nat.le_refl _, hc⟩, fun p h1 h2 => absurd h1 (by omega)⟩
    · have hc' : canDo E (P + 1) crc fs k = false := by
        cases h : canDo E (P + 1) crc fs k
        · rfl
        · exact absurd h hc
      rw [effectivePower, if_neg hc]
      obtain ⟨h1, h2⟩ := ih
      refine ⟨?_, fun p hp1 hp2 => ?_⟩
      · rcases h1 with h1 | ⟨ha, hb, hq⟩
        · exact Or.inl h1
        · exact Or.inr ⟨ha, by omega, hq⟩
      · rcases Nat.lt_or_ge p (P + 1) with hlt | hge
        · exact h2 p hp1 (by omega)
        · have hp : p = P + 1 := by omega
          rw [hp]
          exact hc'

/-- C9: `effectivePower` returns the largest `p' ≤ P` for which `canDo`
holds and `0` when none does; in the `E = 521`, `P = 4` scenario with
`points[8] = 294` missing and all other points present it returns `3`. -/
theorem effectivePower_spec :
    (∀ (E : Nat) (crc : List Nat → Nat) (fs : CacheFS) (k P : Nat),
      (effectivePower E crc fs k P = 0 ∨
        (1 ≤ effectivePower E crc fs k P ∧ effectivePower E crc fs k P ≤ P ∧
          canDo E (effectivePower E crc fs k P) crc fs k = true)) ∧
      (∀ p, effectivePower E crc fs k P < p → p ≤ P → canDo E p crc fs k = false)) ∧
    effectivePower 521 crcZero scenarioFS 521 4 = 3 :=
  ⟨fun E crc fs k P => effectivePower_largest E crc fs k P, by decide⟩

/-- C9 witness: the scenario instantiation of the maximality clause shows the
requested power `4` is not achievable. -/
theorem effectivePower_spec_witness :
    canDo 521 4 crcZero scenarioFS 521 = false :=
  (effectivePower_spec.1 521 crcZero scenarioFS 521 4).2 4 (by decide) (by decide)

-- ---- Claim C10: isValidTo below the first point ----

theorem isValidTo_of_gt (E P : Nat) (crc : List Nat → Nat) (fs : CacheFS) (limitK : Nat)
    (hg : limitK < 4294967295) (h : ∀ x ∈ pointsList E P, limitK < x) :
    isValidTo E P crc fs limitK = true := by
  have h0 : upperBoundIdx (pointsGuard E P) limitK = 0 := by
    apply upperBoundIdx_eq_zero
    intro x hx
    rcases List.mem_append.mp hx with hx | hx
    · exact h x hx
    · rcases List.mem_singleton.mp hx with rfl
      exact hg
  simp only [isValidTo]
  rw [h0]
  simp

theorem canDo_zero (E P : Nat) (crc : List Nat → Nat) (fs : CacheFS) (hE : 1 ≤ E) :
    canDo E P crc fs 0 = true :=
  isValidTo_of_gt E P crc fs 0 (by omega) (fun x hx => pointsList_pos E P hE x hx)

/-- C10: when no proof point is `≤ limitK` (in particular at `limitK = 0`,
every point being strictly positive), `isValidTo` is `true` for any
filesystem contents; hence `canDo(..., 0)` holds and
`effectivePower(..., 0)` returns the full requested power even over an empty
cache directory. -/
theorem validTo_vacuous (E P : Nat) (crc : List Nat → Nat) (fs : CacheFS) (hE : 1 ≤ E) :
    (∀ limitK, limitK < 4294967295 → (∀ x ∈ pointsList E P, limitK < x) →
      isValidTo E P crc fs limitK = true) ∧
    canDo E P crc fs 0 = true ∧
    effectivePower E crc fs 0 P = P := by
  refine ⟨fun limitK hg h => isValidTo_of_gt E P crc fs limitK hg h,
    canDo_zero E P crc fs hE, ?_⟩
  cases P with
  | zero => rfl
  | succ P => rw [effectivePower, if_pos (canDo_zero E (P + 1) crc fs hE)]

/-- C10 witness at `E = 3`, `P = 1` over the empty filesystem. -/
theorem validTo_vacuous_witness :
    1 ≤ 3 ∧ (canDo 3 1 crcZero emptyFS 0 = true ∧ effectivePower 3 crcZero emptyFS 0 1 = 1) :=
  ⟨by decide, (validTo_vacuous 3 1 crcZero emptyFS (by decide)).2⟩

-- ---- Claim C5: residue-cache file shape ----

theorem length_cacheFileBytes (crc : List Nat → Nat) (ws : Words) :
    (cacheFileBytes crc ws).length = 4 * ws.length + 4 := by
  simp [cacheFileBytes, length_wordsBytes, u32le]

/-- C5 (counterexample): at the odd exponent `E = 127` the written cache file
has `127/32 + 1 = 4` words and `20` bytes, not the claimed
`(⌈127/32⌉ + 1 + 1) · 4 = 24`; and a file of the claimed 24-byte size does
not pass `fileExists`. -/
theorem cacheFile_shape_cex :
    127 % 2 = 1 ∧
    (List.replicate (127 / 32 + 1) (0 : Nat)).length = 127 / 32 + 1 ∧
    (cacheFileBytes crcZero (List.replicate (127 / 32 + 1) 0)).length ≠
      ((127 + 31) / 32 + 1 + 1) * 4 ∧
    fileExistsB 127
      (fun n => if n = 2 then some (List.replicate (((127 + 31) / 32 + 1 + 1) * 4) 0) else none)
      2 = false :=
  ⟨by decide, by decide, by decide, by decide⟩

/-- C5 (amended): for every odd `E`, a cache file written for a residue of
the cache word length consists of `Nw = E/32 + 1` little-endian words (for
odd `E` this equals `⌈E/32⌉`, not `⌈E/32⌉ + 1`) followed by the 4-byte CRC,
for a total of `(Nw + 1) · 4` bytes, and `fileExists(k)` holds exactly when
the file named `k` has that size. -/
theorem cacheFile_shape (E : Nat) (crc : List Nat → Nat) (ws : Words)
    (hodd : E % 2 = 1) (hlen : ws.length = E / 32 + 1) :
    (cacheFileBytes crc ws).length = (E / 32 + 1 + 1) * 4 ∧
    E / 32 + 1 = (E + 31) / 32 ∧
    (∀ (fs : CacheFS) (k : Nat),
      fileExistsB E fs k = true ↔ ∃ b, fs k = some b ∧ b.length = (E / 32 + 2) * 4) := by
  refine ⟨?_, by omega, ?_⟩
  · rw [length_cacheFileBytes, hlen]
    ring
  · intro fs k
    cases hfk : fs k with
    | none => simp [fileExistsB, hfk]
    | some b => simp [fileExistsB, hfk]

/-- C5 witness at `E = 127`. -/
theorem cacheFile_shape_witness :
    (127 % 2 = 1 ∧ (List.replicate 4 (0 : Nat)).length = 127 / 32 + 1) ∧
    ((cacheFileBytes crcZero (List.replicate 4 0)).length = (127 / 32 + 1 + 1) * 4 ∧
      127 / 32 + 1 = (127 + 31) / 32 ∧
      (∀ (fs : CacheFS) (k : Nat),
        fileExistsB 127 fs k = true ↔ ∃ b, fs k = some b ∧ b.length = (127 / 32 + 2) * 4)) :=
  ⟨⟨by decide, by decide⟩, cacheFile_shape 127 crcZero (List.replicate 4 0) (by decide) (by decide)⟩

-- ---- Claim C7: save/load round trip of cache residues ----

theorem readChecked_cacheFileBytes (crc : List Nat → Nat) (R : Words)
    (hR : ∀ w ∈ R, w < 4294967296) :
    readChecked crc R.length (cacheFileBytes crc R) = some R := by
  have hlen4 : (wordsBytes R).length = 4 * R.length := length_wordsBytes R
  have htake : (cacheFileBytes crc R).take (4 * R.length) = wordsBytes R := by
    rw [cacheFileBytes, ← hlen4, List.take_left]
  have hdrop : (cacheFileBytes crc R).drop (4 * R.length) =
      u32le (crc (wordsBytes R) % 4294967296) := by
    rw [cacheFileBytes, ← hlen4, List.drop_left]
  simp only [readChecked, htake, hdrop]
  rw [if_pos ⟨hlen4, rfl⟩, bytesToWords_wordsBytes R hR]

/-- C7: after `ProofSet::save(E, P, k, R)` with `k` a proof point and `R` of
the cache word length, `load(E, P, k)` returns exactly `R` and
`fileExists(k)` holds. -/
theorem cache_save_load (E P k : Nat) (crc : List Nat → Nat) (fs : CacheFS) (R : Words)
    (hodd : E % 2 = 1) (hprime : Nat.Prime E) (hP1 : 1 ≤ P) (hP2 : P ≤ 12)
    (hk : isInPoints E P k = true) (hlen : R.length = E / 32 + 1)
    (hR : ∀ w ∈ R, w < 4294967296) :
    loadCache E crc (saveCache E crc fs k R) k = some R ∧
    fileExistsB E (saveCache E crc fs k R) k = true := by
  have hsave : saveCache E crc fs k R k = some (cacheFileBytes crc R) := by
    simp [saveCache]
  constructor
  · simp only [loadCache, hsave, ← hlen]
    exact readChecked_cacheFileBytes crc R hR
  · simp only [fileExistsB, hsave, length_cacheFileBytes, hlen]
    simp
    omega

/-- C7 witness at `E = 3`, `P = 1`, `k = 2`, `R = [9]`. -/
theorem cache_save_load_witness :
    (3 % 2 = 1 ∧ Nat.Prime 3 ∧ 1 ≤ 1 ∧ 1 ≤ 12 ∧ isInPoints 3 1 2 = true ∧
      ([9] : Words).length = 3 / 32 + 1) ∧
    (loadCache 3 crcZero (saveCache 3 crcZero emptyFS 2 [9]) 2 = some [9] ∧
      fileExistsB 3 (saveCache 3 crcZero emptyFS 2 [9]) 2 = true) :=
  ⟨⟨by decide, by decide, by decide, by decide, by decide, by decide⟩,
    cache_save_load 3 1 2 crcZero emptyFS [9] (by decide) (by decide) (by decide)
      (by decide) (by decide) (by decide) (by decide)⟩

-- ---- Claim C6: bestPower ----

/-- C6: `bestPower` performs no clamping.  At `E = 127 > 0` it computes
`10 + ⌊log2(127/60e6)/2⌋ = 10 + ⌊-19/2⌋ = 0`, violating its own
`assert(power >= 2)` (and returning `0` in release builds), while the claim
and the spec require a result clamped to at least `2`.  The last two
conjuncts certify `⌊log2(127/60e6)⌋ = -19` exactly:
`2^-19 ≤ 127/60e6 < 2^-18`. -/
theorem bestPower_bug :
    bestPower 127 = 0 ∧ ¬(2 ≤ bestPower 127) ∧
    floorLog2 127 60000000 = -19 ∧
    60000000 ≤ 127 * 2 ^ 19 ∧ 127 * 2 ^ 18 < 60000000 :=
  ⟨by decide, by decide, by decide, by decide, by decide⟩

-- ---- Claim C1: Proof::verify ----

theorem verifyGo_eq_final (g : VerifyGpu) (sha3 : Sha3Fn) (E : Nat) (hashes : List Nat) :
    ∀ (ms : List Words) (i : Nat) (d : Digest) (A B : Words) (span : Nat),
      (∀ j, j < ms.length → i + j < hashes.length →
        hashes.getD (i + j) 0 = (verifyHashes sha3 E d ms).getD j 0) →
      (verifyGo g sha3 E hashes ms i d A B span = true ↔
        (verifyFinalGo g sha3 E ms d A B span).1 =
          (verifyFinalGo g sha3 E ms d A B span).2) := by
  intro ms
  induction ms with
  | nil =>
    intro i d A B span _
    simp [verifyGo, verifyFinalGo]
  | cons M rest ih =>
    intro i d A B span hagree
    have hcond : ¬(i < hashes.length ∧ (hashWordsPre sha3 E d M).1 ≠ hashes.getD i 0) := by
      rintro ⟨hi, hne⟩
      have h0 := hagree 0 (by simp) (by omega)
      rw [verifyHashes] at h0
      simp only [Nat.add_zero, List.getD_cons_zero] at h0
      exact hne h0.symm
    have hagree' : ∀ j, j < rest.length → (i + 1) + j < hashes.length →
        hashes.getD ((i + 1) + j) 0 =
          (verifyHashes sha3 E (hashWordsPre sha3 E d M) rest).getD j 0 := by
      intro j hj hl
      have h1 := hagree (j + 1) (by simp; omega) (by omega)
      rw [verifyHashes] at h1
      simp only [List.getD_cons_succ] at h1
      have hidx : i + (j + 1) = (i + 1) + j := by omega
      rw [hidx] at h1
      exact h1
    simp only [verifyGo, verifyFinalGo]
    rw [if_neg hcond]
    exact ih (i + 1) (hashWordsPre sha3 E d M) _ _ ((span + 1) / 2) hagree'

/-- C1 (amended): **provided every supplied element of `hashes` agrees with
the recomputed challenge at its index** (vacuously so when `hashes` is empty,
its default), `Proof::verify` returns `true` iff `A == B` at the end of the
described computation; and when it returns `true` the reported verdict is
probable-prime exactly when the loaded `B` is the canonical encoding of 9. -/
theorem verify_iff (g : VerifyGpu) (sha3 : Sha3Fn) (E : Nat) (B : Words)
    (middles : List Words) (hashes : List Nat)
    (hagree : ∀ j, j < middles.length → j < hashes.length →
      hashes.getD j 0 = (verifyHashes sha3 E (hashWords sha3 E B) middles).getD j 0) :
    ((proofVerify g sha3 E B middles hashes).ok = true ↔
      (verifyFinal g sha3 E B middles).1 = (verifyFinal g sha3 E B middles).2) ∧
    ((proofVerify g sha3 E B middles hashes).ok = true →
      ((proofVerify g sha3 E B middles hashes).isPrime = true ↔ B = makeWords E 9)) := by
  constructor
  · exact verifyGo_eq_final g sha3 E hashes middles 0 (hashWords sha3 E B)
      (makeWords E 3) B E (fun j hj hl => by simpa using hagree j hj (by simpa using hl))
  · intro _
    simp [proofVerify]

/-- C1 (counterexample): with a mismatching expected-hash vector, `verify`
returns `false` even though `A == B` holds at the end of the computation, so
the claimed equivalence fails as stated. -/
theorem verify_iff_cex :
    ¬(((proofVerify cexGpu cexSha 3 [2] [[1]] [0]).ok = true) ↔
      ((verifyFinal cexGpu cexSha 3 [2] [[1]]).1 =
        (verifyFinal cexGpu cexSha 3 [2] [[1]]).2)) := by
  decide

/-- C1 witness: the empty `hashes` list (the default argument) satisfies the
agreement hypothesis vacuously. -/
theorem verify_iff_witness :
    (((proofVerify cexGpu cexSha 3 [2] [[1]] []).ok = true) ↔
      ((verifyFinal cexGpu cexSha 3 [2] [[1]]).1 =
        (verifyFinal cexGpu cexSha 3 [2] [[1]]).2)) ∧
    (((proofVerify cexGpu cexSha 3 [2] [[1]] []).ok = true) →
      (((proofVerify cexGpu cexSha 3 [2] [[1]] []).isPrime = true) ↔
        ([2] : Words) = makeWords 3 9)) :=
  verify_iff cexGpu cexSha 3 [2] [[1]] [] (fun j _ hj => absurd hj (Nat.not_lt_zero j))

-- ---- Claim C2: the hash chain of computeProof and verify ----

theorem verifyHashes_eq_specChainGo (sha3 : Sha3Fn) (E : Nat) :
    ∀ (ms : List Words) (d : Digest),
      verifyHashes sha3 E d ms = specChainGo sha3 E d ms := by
  intro ms
  induction ms with
  | nil => intro d; rfl
  | cons M rest ih =>
    intro d
    rw [verifyHashes, specChainGo]
    exact congrArg _ (ih _)

theorem digestFold_append (sha3 : Sha3Fn) (E : Nat) (w : Words) :
    ∀ (ms : List Words) (d : Digest),
      digestFold sha3 E d (ms ++ [w]) = hashWordsPre sha3 E (digestFold sha3 E d ms) w := by
  intro ms
  induction ms with
  | nil => intro d; rfl
  | cons M rest ih => intro d; rw [List.cons_append, digestFold, digestFold]; exact ih _

theorem verifyHashes_append (sha3 : Sha3Fn) (E : Nat) (w : Words) :
    ∀ (ms : List Words) (d : Digest),
      verifyHashes sha3 E d (ms ++ [w]) =
        verifyHashes sha3 E d ms ++ [(hashWordsPre sha3 E (digestFold sha3 E d ms) w).1] := by
  intro ms
  induction ms with
  | nil => intro d; rfl
  | cons M rest ih =>
    intro d
    rw [List.cons_append, verifyHashes, verifyHashes, digestFold]
    rw [ih (hashWordsPre sha3 E d M)]
    rfl

theorem buildGo_spec {β : Type} (g : BuildGpu β) (sha3 : Sha3Fn) (E power : Nat)
    (cache : Nat → Words) (pts : List Nat) (d0 : Digest) :
    ∀ (r p : Nat) (d : Digest) (ms M : List Words) (hs H : List Nat) (bufs : List β),
      d = digestFold sha3 E d0 ms →
      hs = verifyHashes sha3 E d0 ms →
      buildGo g sha3 E power cache pts r p d ms hs bufs = Except.ok (M, H) →
      H = verifyHashes sha3 E d0 M ∧ M.length = ms.length + r := by
  intro r
  induction r with
  | zero =>
    intro p d ms M hs H bufs hd hhs hok
    rw [buildGo] at hok
    injection hok with hok
    obtain ⟨h1, h2⟩ := Prod.mk.injEq .. ▸ hok
    subst h1 h2
    exact ⟨hhs, by omega⟩
  | succ r ih =>
    intro p d ms M hs H bufs hd hhs hok
    rw [buildGo] at hok
    split at hok
    · cases hok
    · refine (fun h => ⟨h.1, by have := h.2; simpa [Nat.add_comm, Nat.add_assoc,
        Nat.add_left_comm] using this⟩) (ih (p + 1) _ (ms ++ [_]) M _ H _ ?_ ?_ hok)
      · rw [digestFold_append, hd]
      · rw [verifyHashes_append, hhs, hd]

/-- C2: the hash vector returned by `ProofSet::computeProof` coincides with
the challenge sequence `Proof::verify` recomputes from the same
`(E, B, M[])`, and both equal the spec's chain
`h[i] = low64(SHA3-256(d_i ‖ bytes(M[i])))`, `d_0 = SHA3-256(bytes(B))`; in
particular `h[0] = low64(SHA3-256(SHA3-256(bytes(B)) ‖ bytes(M[0])))`. -/
theorem computeProof_hashchain {β : Type} (g : BuildGpu β) (sha3 : Sha3Fn)
    (E power : Nat) (cache : Nat → Words) (pts : List Nat)
    (B : Words) (middles : List Words) (hashes : List Nat)
    (hok : computeProof g sha3 E power cache pts = Except.ok (B, middles, hashes)) :
    B = cache E ∧
    hashes = verifyHashes sha3 E (hashWords sha3 E B) middles ∧
    hashes = specChain sha3 E B middles ∧
    middles.length = power ∧
    (1 ≤ power →
      hashes.getD 0 0 =
        (sha3 (digestBytes (sha3 (residueBytes E B)) ++
          residueBytes E (middles.headD []))).1) := by
  rw [computeProof] at hok
  cases hbuild : buildGo g sha3 E power cache pts power 0
      (hashWords sha3 E (cache E)) [] [] (List.replicate power g.dummy) with
  | error e =>
    rw [hbuild] at hok
    cases hok
  | ok pr =>
    obtain ⟨m, h⟩ := pr
    rw [hbuild] at hok
    simp only [Except.ok.injEq, Prod.mk.injEq] at hok
    obtain ⟨hB, hm, hh⟩ := hok
    subst hB hm hh
    obtain ⟨hchain, hlen⟩ := buildGo_spec g sha3 E power cache pts
      (hashWords sha3 E (cache E)) power 0 _ [] m [] h _ rfl rfl hbuild
    have hlen' : m.length = power := by simpa using hlen
    refine ⟨rfl, hchain, ?_, hlen', ?_⟩
    · rw [hchain, specChain]
      exact verifyHashes_eq_specChainGo sha3 E m _
    · intro hpow
      cases hm : m with
      | nil => rw [hm] at hlen'; simp at hlen'; omega
      | cons M rest =>
        rw [hm] at hchain
        rw [hchain, verifyHashes]
        rfl

/-- C2 witness: a concrete one-level build over a trivial engine. -/
theorem computeProof_hashchain_witness :
    ([1] : Words) = (fun _ => ([1] : Words)) 3 ∧
    ([33] : List Nat) = verifyHashes bldSha 3 (hashWords bldSha 3 [1]) [[5]] ∧
    ([33] : List Nat) = specChain bldSha 3 [1] [[5]] ∧
    ([[5]] : List Words).length = 1 ∧
    (1 ≤ 1 →
      ([33] : List Nat).getD 0 0 =
        (bldSha (digestBytes (bldSha (residueBytes 3 [1])) ++
          residueBytes 3 (([[5]] : List Words).headD []))).1) :=
  computeProof_hashchain bldGpu bldSha 3 1 (fun _ => [1]) (pointsGuard 3 1)
    [1] [[5]] [33] rfl

-- ---- Claim C4: proof-file round trip: digits, split, header ----

theorem digitsVal_append_digit (xs : List Nat) (b : Nat) :
    digitsVal (xs ++ [b]) = digitsVal xs * 10 + (b - 48) := by
  rw [digitsVal, digitsVal, List.foldl_append]
  rfl

theorem digitsFuel_spec (fuel : Nat) :
    ∀ n, n ≤ fuel →
      digitsVal (digitsFuel fuel n) = n ∧
      (∀ b ∈ digitsFuel fuel n, isDigitB b = true) ∧
      digitsFuel fuel n ≠ [] := by
  induction fuel with
  | zero =>
    intro n hn
    have : n = 0 := by omega
    subst this
    refine ⟨rfl, ?_, by simp [digitsFuel]⟩
    intro b hb
    rcases List.mem_singleton.mp hb with rfl
    rfl
  | succ fuel ih =>
    intro n hn
    by_cases h10 : n < 10
    · rw [digitsFuel, if_pos h10]
      refine ⟨by simp [digitsVal], ?_, by simp⟩
      intro b hb
      rcases List.mem_singleton.mp hb with rfl
      simp [isDigitB]
      omega
    · rw [digitsFuel, if_neg h10]
      have hrec := ih (n / 10) (by omega)
      refine ⟨?_, ?_, by simp⟩
      · rw [digitsVal_append_digit, hrec.1]
        omega
      · intro b hb
        rcases List.mem_append.mp hb with h | h
        · exact hrec.2.1 b h
        · rcases List.mem_singleton.mp h with rfl
          simp [isDigitB]
          omega

theorem natDigitBytes_val (n : Nat) : digitsVal (natDigitBytes n) = n :=
  (digitsFuel_spec n n (Nat.le_refl n)).1

theorem natDigitBytes_digits (n : Nat) : ∀ b ∈ natDigitBytes n, isDigitB b = true :=
  (digitsFuel_spec n n (Nat.le_refl n)).2.1

theorem natDigitBytes_ne_nil (n : Nat) : natDigitBytes n ≠ [] :=
  (digitsFuel_spec n n (Nat.le_refl n)).2.2

theorem parseU32_natDigitBytes (n : Nat) (hn : n < 4294967296) :
    parseU32 (natDigitBytes n) = some n := by
  rw [parseU32, if_pos, natDigitBytes_val]
  refine ⟨natDigitBytes_ne_nil n, ?_, ?_⟩
  · rw [List.all_eq_true]
    exact natDigitBytes_digits n
  · rw [natDigitBytes_val]
    exact hn

theorem digit_not_space {b : Nat} (h : isDigitB b = true) : isSpaceB b = false := by
  rw [isDigitB] at h
  rw [isSpaceB]
  simp only [decide_eq_true_eq] at h
  simp only [decide_eq_false_iff_not]
  omega

theorem takeWhile_append_stop {p : Nat → Bool} :
    ∀ (xs : List Nat) (b : Nat) (rest : List Nat),
      (∀ x ∈ xs, p x = true) → p b = false →
      ((xs ++ b :: rest).takeWhile p = xs ∧ (xs ++ b :: rest).dropWhile p = b :: rest) := by
  intro xs
  induction xs with
  | nil =>
    intro b rest _ hb
    simp [List.takeWhile_cons, List.dropWhile_cons, hb]
  | cons x xs ih =>
    intro b rest hxs hb
    have hx : p x = true := hxs x (List.mem_cons_self _ _)
    have := ih b rest (fun u hu => hxs u (List.mem_cons_of_mem _ hu)) hb
    simp [List.takeWhile_cons, List.dropWhile_cons, hx, this.1, this.2]

theorem dropLit_self (lit rest : List Nat) : dropLit lit (lit ++ rest) = some rest := by
  rw [dropLit, if_pos (List.take_left lit rest), List.drop_left]

theorem parseHeader_save (power : Nat) (number payload : List Nat)
    (hpw : power < 4294967296)
    (hnum : ∀ b ∈ number, isSpaceB b = false) (hne : number ≠ []) :
    parseHeader (headerLit1 ++ (natDigitBytes power ++ 10 :: (headerLit2 ++
        (number ++ 10 :: payload)))) = some (power, number, payload) := by
  have hdig := takeWhile_append_stop (p := fun b => isDigitB b) (natDigitBytes power) 10
    (headerLit2 ++ (number ++ 10 :: payload)) (natDigitBytes_digits power) (by rfl)
  have hd2 : dropLit (10 :: headerLit2) (10 :: (headerLit2 ++ (number ++ 10 :: payload))) =
      some (number ++ 10 :: payload) :=
    dropLit_self (10 :: headerLit2) (number ++ 10 :: payload)
  have hnsp := takeWhile_append_stop (p := fun b => !isSpaceB b) number 10 payload
    (fun b hb => by rw [Bool.not_eq_true']; simpa using hnum b hb) (by rfl)
  rw [parseHeader]
  simp only [dropLit_self, hdig.1, hdig.2, parseU32_natDigitBytes power hpw, hd2,
    hnsp.1, hnsp.2, if_neg hne]

theorem splitOnByte_no_delim {c : Nat} :
    ∀ (a : List Nat), (∀ b ∈ a, b ≠ c) → splitOnByte c a = [a] := by
  intro a
  induction a with
  | nil => intro _; rfl
  | cons x xs ih =>
    intro h
    have hx : x ≠ c := h x (List.mem_cons_self _ _)
    rw [splitOnByte, if_neg hx, ih (fun b hb => h b (List.mem_cons_of_mem _ hb))]

theorem splitOnByte_delim {c : Nat} :
    ∀ (a t : List Nat), (∀ b ∈ a, b ≠ c) →
      splitOnByte c (a ++ c :: t) = a :: splitOnByte c t := by
  intro a
  induction a with
  | nil =>
    intro t _
    rw [List.nil_append, splitOnByte, if_pos rfl]
  | cons x xs ih =>
    intro t h
    have hx : x ≠ c := h x (List.mem_cons_self _ _)
    rw [List.cons_append, splitOnByte, if_neg hx,
      ih t (fun b hb => h b (List.mem_cons_of_mem _ hb))]

theorem splitOnByte_join {c : Nat} :
    ∀ (fs : List (List Nat)) (a : List Nat), (∀ b ∈ a, b ≠ c) →
      (∀ f ∈ fs, ∀ b ∈ f, b ≠ c) →
      splitOnByte c (a ++ fs.flatMap (fun f => c :: f)) = a :: fs := by
  intro fs
  induction fs with
  | nil =>
    intro a ha _
    simp only [List.flatMap_nil, List.append_nil]
    exact splitOnByte_no_delim a ha
  | cons f fs ih =>
    intro a ha hfs
    have h1 : a ++ (f :: fs).flatMap (fun f => c :: f) =
        a ++ c :: (f ++ fs.flatMap (fun f => c :: f)) := by
      simp [List.flatMap_cons]
    rw [h1, splitOnByte_delim a _ ha,
      ih f (hfs f (List.mem_cons_self _ _)) (fun g hg => hfs g (List.mem_cons_of_mem _ hg))]

theorem digit_ne_slash {b : Nat} (h : isDigitB b = true) : b ≠ 47 := by
  rw [isDigitB] at h
  simp only [decide_eq_true_eq] at h
  omega

theorem mersenneToBytes_no_space (E : Nat) (fs : List (List Nat))
    (hfs : ∀ f ∈ fs, f.all (fun b => isDigitB b) = true) :
    ∀ b ∈ mersenneToBytes E fs, isSpaceB b = false := by
  intro b hb
  rw [mersenneToBytes] at hb
  rcases List.mem_cons.mp hb with rfl | hb
  · decide
  · rcases List.mem_append.mp hb with h | h
    · exact digit_not_space (natDigitBytes_digits E b h)
    · obtain ⟨f, hf, hbf⟩ := List.mem_flatMap.mp h
      rcases List.mem_cons.mp hbf with rfl | hbf
      · decide
      · exact digit_not_space (List.all_eq_true.mp (hfs f hf) b hbf)

theorem mersenneFromBytes_toBytes (E : Nat) (fs : List (List Nat)) (hE32 : E < 4294967296)
    (hfac : ∀ f ∈ fs, f ≠ [] ∧ f.all (fun b => isDigitB b) = true ∧ 0 < digitsVal f) :
    mersenneFromBytes (mersenneToBytes E fs) = some (E, fs) := by
  have hdig47 : ∀ b ∈ natDigitBytes E, b ≠ 47 :=
    fun b hb => digit_ne_slash (natDigitBytes_digits E b hb)
  have hfs47 : ∀ f ∈ fs, ∀ b ∈ f, b ≠ 47 :=
    fun f hf b hb => digit_ne_slash (List.all_eq_true.mp (hfac f hf).2.1 b hb)
  have hsplit := splitOnByte_join fs (natDigitBytes E) hdig47 hfs47
  rw [mersenneToBytes, mersenneFromBytes]
  simp only [hsplit, parseU32_natDigitBytes E hE32]
  rw [if_pos, List.filter_eq_self.mpr (fun f hf => decide_eq_true (hfac f hf).1)]
  rw [List.all_eq_true]
  intro f hf
  exact decide_eq_true (Or.inr ⟨(hfac f hf).2.1, (hfac f hf).2.2⟩)

-- ---- Claim C4: payload round trip ----

theorem residue_chunk_length (E : Nat) (ws : Words) (hlen : ws.length = E / 32 + 1)
    (hodd : E % 2 = 1) :
    ((wordsBytes ws).take ((E - 1) / 8 + 1)).length = (E - 1) / 8 + 1 := by
  rw [List.length_take, length_wordsBytes, hlen]
  omega

theorem bytesToWords_take_canonical :
    ∀ (ws : Words) (n : Nat),
      (∀ w ∈ ws, w < 4294967296) →
      4 * ws.length ≤ n + 3 → n ≤ 4 * ws.length →
      (∀ b ∈ (wordsBytes ws).drop n, b = 0) →
      bytesToWords ((wordsBytes ws).take n) = ws := by
  intro ws
  induction ws with
  | nil =>
    intro n _ _ h2 _
    simp only [List.length_nil] at h2
    have hn : n = 0 := by omega
    subst hn
    rfl
  | cons w rest ih =>
    intro n hw h1 h2 hz
    have hw' : w < 4294967296 := hw w (List.mem_cons_self _ _)
    cases rest with
    | nil =>
      have hb : wordsBytes [w] =
          [w % 256, w / 256 % 256, w / 65536 % 256, w / 16777216 % 256] := rfl
      rw [hb] at hz ⊢
      simp only [List.length_cons, List.length_nil] at h1 h2
      have hn1 : 1 ≤ n := by omega
      have hn4 : n ≤ 4 := by omega
      interval_cases n
      · have z1 : w / 256 % 256 = 0 := hz _ (by simp)
        have z2 : w / 65536 % 256 = 0 := hz _ (by simp)
        have z3 : w / 16777216 % 256 = 0 := hz _ (by simp)
        have hcalc : bytesToWords [w % 256] = [w % 256] := rfl
        show bytesToWords [w % 256] = [w]
        rw [hcalc]
        congr 1
        omega
      · have z2 : w / 65536 % 256 = 0 := hz _ (by simp)
        have z3 : w / 16777216 % 256 = 0 := hz _ (by simp)
        have hcalc : bytesToWords [w % 256, w / 256 % 256] =
            [w % 256 + 256 * (w / 256 % 256)] := rfl
        show bytesToWords [w % 256, w / 256 % 256] = [w]
        rw [hcalc]
        congr 1
        omega
      · have z3 : w / 16777216 % 256 = 0 := hz _ (by simp)
        have hcalc : bytesToWords [w % 256, w / 256 % 256, w / 65536 % 256] =
            [w % 256 + 256 * (w / 256 % 256) + 65536 * (w / 65536 % 256)] := rfl
        show bytesToWords [w % 256, w / 256 % 256, w / 65536 % 256] = [w]
        rw [hcalc]
        congr 1
        omega
      · have hcalc : bytesToWords
            [w % 256, w / 256 % 256, w / 65536 % 256, w / 16777216 % 256] =
            [w % 256 + 256 * (w / 256 % 256) + 65536 * (w / 65536 % 256)
              + 16777216 * (w / 16777216 % 256)] := rfl
        show bytesToWords
            [w % 256, w / 256 % 256, w / 65536 % 256, w / 16777216 % 256] = [w]
        rw [hcalc]
        congr 1
        omega
    | cons r rs =>
      have h4 : 4 ≤ n := by
        simp only [List.length_cons] at h1
        omega
      obtain ⟨m, rfl⟩ : ∃ m, n = m + 4 := ⟨n - 4, by omega⟩
      rw [wordsBytes_cons] at hz ⊢
      simp only [List.take_succ_cons, List.drop_succ_cons] at hz ⊢
      rw [bytesToWords_cons4]
      simp only [List.length_cons] at h1 h2
      have htail := ih m (fun x hx => hw x (List.mem_cons_of_mem _ hx))
        (by simp only [List.length_cons]; omega)
        (by simp only [List.length_cons]; omega) hz
      rw [htail]
      congr 1
      omega

theorem chunksLE_cons (nBytes c : Nat) (chunk rest : List Nat)
    (hlen : chunk.length = nBytes) :
    chunksLE nBytes (c + 1) (chunk ++ rest) = bytesToWords chunk :: chunksLE nBytes c rest := by
  rw [chunksLE, ← hlen, List.take_left, List.drop_left]

theorem chunksLE_roundtrip (E : Nat) (hodd : E % 2 = 1) :
    ∀ (ms : List Words),
      (∀ m ∈ ms, m.length = E / 32 + 1 ∧ (∀ w ∈ m, w < 4294967296) ∧
        (∀ b ∈ (wordsBytes m).drop ((E - 1) / 8 + 1), b = 0)) →
      chunksLE ((E - 1) / 8 + 1) ms.length
        (ms.flatMap (fun w => (wordsBytes w).take ((E - 1) / 8 + 1))) = ms := by
  intro ms
  induction ms with
  | nil => intro _; rfl
  | cons m rest ih =>
    intro hms
    obtain ⟨hlen, hw, hzero⟩ := hms m (List.mem_cons_self _ _)
    rw [List.flatMap_cons, List.length_cons,
      chunksLE_cons _ _ _ _ (residue_chunk_length E m hlen hodd),
      ih (fun x hx => hms x (List.mem_cons_of_mem _ hx)),
      bytesToWords_take_canonical m _ hw (by rw [hlen]; omega) (by rw [hlen]; omega) hzero]

theorem flatMap_chunks_length (E : Nat) (hodd : E % 2 = 1) :
    ∀ (ms : List Words),
      (∀ m ∈ ms, m.length = E / 32 + 1) →
      (ms.flatMap (fun w => (wordsBytes w).take ((E - 1) / 8 + 1))).length =
        ms.length * ((E - 1) / 8 + 1) := by
  intro ms
  induction ms with
  | nil => intro _; simp
  | cons m rest ih =>
    intro hms
    rw [List.flatMap_cons, List.length_append,
      residue_chunk_length E m (hms m (List.mem_cons_self _ _)) hodd,
      ih (fun x hx => hms x (List.mem_cons_of_mem _ hx)), List.length_cons]
    ring

/-- C4: `Proof::load` after `Proof::save` restores the exponent, the known
factors, `B` and the middles exactly, for proofs with valid fields (odd
`u32` exponent, power in `[1,12]`, positive decimal factor strings, residues
of the cache word length whose byte image beyond `ceil(E/8)` is zero, i.e.
canonical).  Cofactor headers with several factors round-trip through
`NUMBER=M<E>/<f>/<f>...`. -/
theorem proof_roundtrip (p : ProofData)
    (hE1 : 1 ≤ p.E) (hodd : p.E % 2 = 1) (hE32 : p.E < 4294967296)
    (hpow1 : 1 ≤ p.middles.length) (hpow2 : p.middles.length ≤ 12)
    (hfac : ∀ f ∈ p.knownFactors, f ≠ [] ∧ f.all (fun b => isDigitB b) = true ∧
      0 < digitsVal f)
    (hB : p.B.length = p.E / 32 + 1 ∧ (∀ w ∈ p.B, w < 4294967296) ∧
      (∀ b ∈ (wordsBytes p.B).drop ((p.E - 1) / 8 + 1), b = 0))
    (hm : ∀ m ∈ p.middles, m.length = p.E / 32 + 1 ∧ (∀ w ∈ m, w < 4294967296) ∧
      (∀ b ∈ (wordsBytes m).drop ((p.E - 1) / 8 + 1), b = 0)) :
    proofLoad (proofSave p) = some p := by
  obtain ⟨E, kf, B, ms⟩ := p
  simp only at hE1 hodd hE32 hpow1 hpow2 hfac hB hm
  have hBchunklen : ((wordsBytes B).take ((E - 1) / 8 + 1)).length = (E - 1) / 8 + 1 :=
    residue_chunk_length E B hB.1 hodd
  have hflatlen := flatMap_chunks_length E hodd ms (fun m hmem => (hm m hmem).1)
  have hassoc : proofSave ⟨E, kf, B, ms⟩ =
      headerLit1 ++ (natDigitBytes ms.length ++ 10 :: (headerLit2 ++
        (mersenneToBytes E kf ++ 10 ::
          ((wordsBytes B).take ((E - 1) / 8 + 1) ++
            ms.flatMap (fun w => (wordsBytes w).take ((E - 1) / 8 + 1)))))) := by
    simp [proofSave, List.append_assoc]
  have hheader := parseHeader_save ms.length (mersenneToBytes E kf)
    ((wordsBytes B).take ((E - 1) / 8 + 1) ++
      ms.flatMap (fun w => (wordsBytes w).take ((E - 1) / 8 + 1)))
    (by omega) (mersenneToBytes_no_space E kf (fun f hf => (hfac f hf).2.1))
    (by simp [mersenneToBytes])
  rw [hassoc, proofLoad]
  simp only [hheader, mersenneFromBytes_toBytes E kf hE32 hfac]
  have hplen : ((wordsBytes B).take ((E - 1) / 8 + 1) ++
      ms.flatMap (fun w => (wordsBytes w).take ((E - 1) / 8 + 1))).length =
      ((E - 1) / 8 + 1) * (ms.length + 1) := by
    rw [List.length_append, hBchunklen, hflatlen]
    ring
  rw [if_pos (by rw [hplen])]
  have htakeB : ((wordsBytes B).take ((E - 1) / 8 + 1) ++
      ms.flatMap (fun w => (wordsBytes w).take ((E - 1) / 8 + 1))).take ((E - 1) / 8 + 1) =
      (wordsBytes B).take ((E - 1) / 8 + 1) :=
    List.take_left' hBchunklen
  have hdropB : ((wordsBytes B).take ((E - 1) / 8 + 1) ++
      ms.flatMap (fun w => (wordsBytes w).take ((E - 1) / 8 + 1))).drop ((E - 1) / 8 + 1) =
      ms.flatMap (fun w => (wordsBytes w).take ((E - 1) / 8 + 1)) :=
    List.drop_left' hBchunklen
  rw [htakeB, hdropB,
    bytesToWords_take_canonical B _ hB.2.1 (by rw [hB.1]; omega) (by rw [hB.1]; omega) hB.2.2,
    chunksLE_roundtrip E hodd ms hm]

/-- C4 witness: a proof at `E = 3` with a two-factor cofactor header. -/
theorem proof_roundtrip_witness :
    ((1 : Nat) ≤ 3 ∧ 3 % 2 = 1 ∧ (3 : Nat) < 4294967296 ∧
      1 ≤ ([[1]] : List Words).length ∧ ([[1]] : List Words).length ≤ 12 ∧
      (∀ f ∈ [[53], [55]], f ≠ [] ∧ f.all (fun b => isDigitB b) = true ∧ 0 < digitsVal f) ∧
      ([6] : Words).length = 3 / 32 + 1) ∧
    proofLoad (proofSave { E := 3, knownFactors := [[53], [55]], B := [6], middles := [[1]] }) =
      some { E := 3, knownFactors := [[53], [55]], B := [6], middles := [[1]] } :=
  ⟨⟨by decide, by decide, by decide, by decide, by decide, by decide, by decide⟩,
    proof_roundtrip { E := 3, knownFactors := [[53], [55]], B := [6], middles := [[1]] }
      (by decide) (by decide) (by decide) (by decide) (by decide) (by decide)
      (by decide) (by decide)⟩
